import Mathlib

/-!
# Verification of the charwrapper text-transition engine

Shallow embedding of the algorithmic core of the `charwrapper` repository:

* `TextTransition.smartMapping` (the alignment planner of the pixel-offset
  transition variant, `src/WrapperFactory.ts` lines 347-425),
* the canonical DOM-rebuild `TextTransition.transition` / `smartTransition`
  (`src/WrapperFactory.ts` lines 668-894),
* `WrapperFactory.createCharElement` / `wrapChars` with the enumeration
  counter and `padNumber` (`src/WrapperFactory.ts`, `src/utils`),
* the `CharWrapper` facade guards for `wrap` / `transitionTo`
  (`src/config.ts` concatenation, `CharWrapper` class).

Strings are embedded as `List Char` (the source splits with `split('')`;
for the characters appearing in this development code units and code
points coincide).  JS `Set` objects of indices are embedded as `List Nat`
in insertion order; the JS `Map` keyed by characters is embedded as an
association list in key-insertion order, matching `Map` iteration order.
Element references are kept abstract in a type `α`; a JS out-of-range
array read (`oldElements[i]` yielding `undefined`) is embedded as
`List.get?` yielding `none`.
-/

namespace CharWrapper

/-! ## Alignment plan data model (`CharacterMapping` in the source) -/

/-- A `keep` entry of the alignment plan: an old element reused at a new
position.  `element` is `oldElements[oldIndex]`, `none` when that read is
out of range (JS `undefined`). -/
structure KeepItem (α : Type) where
  oldIndex : Nat
  newIndex : Nat
  element : Option α
deriving Repr, DecidableEq

/-- A `remove` entry: an old element to animate out. -/
structure RemoveItem (α : Type) where
  index : Nat
  element : Option α
deriving Repr, DecidableEq

/-- An `add` entry: a character of the new text with no reused element. -/
structure AddItem where
  index : Nat
  char : Char
deriving Repr, DecidableEq

/-- The alignment plan (`CharacterMapping` interface). -/
structure CharacterMapping (α : Type) where
  keep : List (KeepItem α)
  remove : List (RemoveItem α)
  add : List AddItem
deriving Repr, DecidableEq

variable {α : Type}

/-! ## `smartMapping` (first transition variant, lines 347-425)

The two used-index `Set`s are embedded as lists in insertion order; the
first pass's loop over `i < min(oldChars.length, newChars.length)` keeping
positions with equal characters is the `filter` below. -/

/-- First pass of `smartMapping`: the indices `i < min |old| |new|` with
`oldChars[i] === newChars[i]`, in increasing order.  These become `keep`
entries with `oldIndex = newIndex = i` and initialise both used-index
sets. -/
def exactMatches (oldChars newChars : List Char) : List Nat :=
  (List.range (min oldChars.length newChars.length)).filter
    (fun i => decide (oldChars[i]? = newChars[i]?))

/-- State threaded through the passes of `smartMapping`: the `keep` array
and the `usedOldIndices` / `usedNewIndices` sets (as insertion-ordered
lists). -/
structure MappingState (α : Type) where
  keep : List (KeepItem α)
  usedOld : List Nat
  usedNew : List Nat
deriving Repr, DecidableEq

/-- One iteration of the inner loop of the proximity pass: skip used
indices and mismatching characters, otherwise keep the index of strictly
smallest `|oldIdx - newIdx|` (so on a tie the earlier index is kept). -/
def findBestStep (oldChars : List Char) (usedOld : List Nat) (c : Char)
    (newIdx : Nat) (best : Option Nat) (oldIdx : Nat) : Option Nat :=
  if oldIdx ∈ usedOld then best
  else if oldChars[oldIdx]? ≠ some c then best
  else
    match best with
    | none => some oldIdx
    | some b =>
        if Nat.dist oldIdx newIdx < Nat.dist b newIdx then some oldIdx
        else best

/-- The inner loop of the proximity pass: scan `oldIdx` over
`0 .. oldChars.length - 1`.  The JS initial state
`bestOldIdx = -1, bestDistance = Infinity` is the `none` accumulator. -/
def findBestOld (oldChars : List Char) (usedOld : List Nat) (c : Char)
    (newIdx : Nat) : Option Nat :=
  (List.range oldChars.length).foldl (findBestStep oldChars usedOld c newIdx)
    none

/-- One iteration of the proximity pass at new index `newIdx` holding
character `c`: skip if already matched, otherwise pair with the best
unused old index (if any) and consume both indices. -/
def pass2Step (oldChars : List Char) (oldElements : List α)
    (st : MappingState α) (newIdx : Nat) (c : Char) : MappingState α :=
  if newIdx ∈ st.usedNew then st
  else
    match findBestOld oldChars st.usedOld c newIdx with
    | none => st
    | some b =>
        { keep := st.keep ++ [⟨b, newIdx, oldElements[b]?⟩]
          usedOld := st.usedOld ++ [b]
          usedNew := st.usedNew ++ [newIdx] }

/-- Second pass of `smartMapping`: iterate `newIdx` over the new string in
increasing order. -/
def pass2 (oldChars newChars : List Char) (oldElements : List α)
    (st : MappingState α) : MappingState α :=
  (List.range newChars.length).foldl
    (fun st j => pass2Step oldChars oldElements st j (newChars.getD j default))
    st

/-- The state after the exact-position pass: every index
`i < min |old| |new|` with equal characters is kept at identical
positions and recorded in both used sets. -/
def pass1State (oldChars newChars : List Char) (oldElements : List α) :
    MappingState α :=
  let em := exactMatches oldChars newChars
  { keep := em.map (fun i => ⟨i, i, oldElements[i]?⟩)
    usedOld := em
    usedNew := em }

/-- The mapping state after both passes of `smartMapping`. -/
def smartState (oldChars newChars : List Char) (oldElements : List α) :
    MappingState α :=
  pass2 oldChars newChars oldElements (pass1State oldChars newChars oldElements)

/-- Embedding of `TextTransition.smartMapping`: two-pass greedy alignment.  The third
and fourth passes list the unconsumed old indices as `remove` and the
unconsumed new indices as `add`, in increasing order. -/
def smartMapping (oldText newText : String) (oldElements : List α) :
    CharacterMapping α :=
  let oldChars := oldText.toList
  let newChars := newText.toList
  let st2 := smartState oldChars newChars oldElements
  { keep := st2.keep
    remove := ((List.range oldChars.length).filter
        (fun i => decide (i ∉ st2.usedOld))).map
        (fun i => ⟨i, oldElements[i]?⟩)
    add := ((List.range newChars.length).filter
        (fun j => decide (j ∉ st2.usedNew))).map
        (fun j => ⟨j, newChars.getD j default⟩) }

/-- Embedding of `TextTransition.sequentialMapping`: keep nothing, remove every old
element, add every new character. -/
def sequentialMapping (_oldText newText : String) (oldElements : List α) :
    CharacterMapping α :=
  { keep := []
    remove := (List.range oldElements.length).map
        (fun i => ⟨i, oldElements[i]?⟩)
    add := ((List.range newText.toList.length).map
        (fun j => ⟨j, newText.toList.getD j default⟩)) }

example :
    smartMapping "cat" "cats" [10, 11, 12] =
      { keep := [⟨0, 0, some 10⟩, ⟨1, 1, some 11⟩, ⟨2, 2, some 12⟩]
        remove := []
        add := [⟨3, 's'⟩] } := by decide

example :
    smartMapping "cats" "cat" [10, 11, 12, 13] =
      { keep := [⟨0, 0, some 10⟩, ⟨1, 1, some 11⟩, ⟨2, 2, some 12⟩]
        remove := [⟨3, some 13⟩]
        add := [] } := by decide

example :
    smartMapping "ab" "ba" [10, 11] =
      { keep := [⟨1, 0, some 11⟩, ⟨0, 1, some 10⟩]
        remove := []
        add := [] } := by decide

/-! ## Invariants of the mapping state -/

/-- A candidate for the proximity pass at character `c`: an old index that
is not yet consumed and holds the character `c`. -/
def Candidate (oldChars : List Char) (usedOld : List Nat) (c : Char)
    (b : Nat) : Prop :=
  b < oldChars.length ∧ b ∉ usedOld ∧ oldChars[b]? = some c

/-- Invariant maintained by both passes of `smartMapping`.  The used-index
sets record exactly the kept indices, without duplicates, in range, and
every kept pair matches characters and carries `oldElements[oldIndex]`. -/
structure MappingInv (oldChars newChars : List Char) (oldElements : List α)
    (st : MappingState α) : Prop where
  usedOld_eq : st.usedOld = st.keep.map KeepItem.oldIndex
  usedNew_eq : st.usedNew = st.keep.map KeepItem.newIndex
  nodupOld : st.usedOld.Nodup
  nodupNew : st.usedNew.Nodup
  ltOld : ∀ i ∈ st.usedOld, i < oldChars.length
  ltNew : ∀ j ∈ st.usedNew, j < newChars.length
  chars_eq : ∀ k ∈ st.keep, oldChars[k.oldIndex]? = newChars[k.newIndex]?
  elem_eq : ∀ k ∈ st.keep, k.element = oldElements[k.oldIndex]?

theorem findBestStep_skip_used (oldChars : List Char) (usedOld : List Nat)
    (c : Char) (newIdx : Nat) (best : Option Nat) (x : Nat)
    (hused : x ∈ usedOld) :
    findBestStep oldChars usedOld c newIdx best x = best := by
  simp [findBestStep, hused]

theorem findBestStep_skip_char (oldChars : List Char) (usedOld : List Nat)
    (c : Char) (newIdx : Nat) (best : Option Nat) (x : Nat)
    (hchar : oldChars[x]? ≠ some c) :
    findBestStep oldChars usedOld c newIdx best x = best := by
  by_cases hused : x ∈ usedOld <;> simp [findBestStep, hused, hchar]

theorem findBestStep_none (oldChars : List Char) (usedOld : List Nat)
    (c : Char) (newIdx : Nat) (x : Nat) (hused : x ∉ usedOld)
    (hchar : oldChars[x]? = some c) :
    findBestStep oldChars usedOld c newIdx none x = some x := by
  simp [findBestStep, hused, hchar]

theorem findBestStep_improve (oldChars : List Char) (usedOld : List Nat)
    (c : Char) (newIdx : Nat) (b0 x : Nat) (hused : x ∉ usedOld)
    (hchar : oldChars[x]? = some c)
    (hd : Nat.dist x newIdx < Nat.dist b0 newIdx) :
    findBestStep oldChars usedOld c newIdx (some b0) x = some x := by
  simp [findBestStep, hused, hchar, hd]

theorem findBestStep_keep (oldChars : List Char) (usedOld : List Nat)
    (c : Char) (newIdx : Nat) (b0 x : Nat) (hused : x ∉ usedOld)
    (hchar : oldChars[x]? = some c)
    (hd : ¬ Nat.dist x newIdx < Nat.dist b0 newIdx) :
    findBestStep oldChars usedOld c newIdx (some b0) x = some b0 := by
  simp [findBestStep, hused, hchar, hd]

/-- Generalised fold lemma for `findBestOld`: a produced index is either
the incoming accumulator or a candidate from the scanned list. -/
theorem findBestOld_go_mem (oldChars : List Char) (usedOld : List Nat)
    (c : Char) (newIdx : Nat) (l : List Nat) (best : Option Nat) (b : Nat)
    (h : l.foldl (findBestStep oldChars usedOld c newIdx) best = some b) :
    best = some b ∨ (b ∈ l ∧ b ∉ usedOld ∧ oldChars[b]? = some c) := by
  induction l generalizing best with
  | nil => exact Or.inl h
  | cons x l ih =>
      rw [List.foldl_cons] at h
      rcases ih _ h with hx | hmem
      · by_cases hused : x ∈ usedOld
        · rw [findBestStep_skip_used _ _ _ _ _ _ hused] at hx
          exact Or.inl hx
        · by_cases hchar : oldChars[x]? = some c
          · cases best with
            | none =>
                rw [findBestStep_none _ _ _ _ _ hused hchar,
                  Option.some.injEq] at hx
                subst hx
                exact Or.inr ⟨List.mem_cons_self _ _, hused, hchar⟩
            | some b0 =>
                by_cases hd : Nat.dist x newIdx < Nat.dist b0 newIdx
                · rw [findBestStep_improve _ _ _ _ _ _ hused hchar hd,
                    Option.some.injEq] at hx
                  subst hx
                  exact Or.inr ⟨List.mem_cons_self _ _, hused, hchar⟩
                · rw [findBestStep_keep _ _ _ _ _ _ hused hchar hd] at hx
                  exact Or.inl hx
          · rw [findBestStep_skip_char _ _ _ _ _ _ hchar] at hx
            exact Or.inl hx
      · exact Or.inr ⟨List.mem_cons_of_mem _ hmem.1, hmem.2⟩

/-- A successful `findBestOld` returns a candidate: in range, unused, and
holding the requested character. -/
theorem findBestOld_candidate (oldChars : List Char) (usedOld : List Nat)
    (c : Char) (newIdx b : Nat)
    (h : findBestOld oldChars usedOld c newIdx = some b) :
    Candidate oldChars usedOld c b := by
  rcases findBestOld_go_mem oldChars usedOld c newIdx _ none b h with h0 | h1
  · exact absurd h0 (by simp)
  · exact ⟨List.mem_range.mp h1.1, h1.2.1, h1.2.2⟩

/-- Generalised minimality lemma for the `findBestOld` fold.  Scanning a
strictly increasing list of indices, where the incoming accumulator was
chosen before every scanned index, the result beats every candidate of
the list either strictly in distance or, on equal distance, by having the
smaller index; relative to the incoming accumulator the result is at
least as close, strictly so if it differs. -/
theorem findBestOld_go_min (oldChars : List Char) (usedOld : List Nat)
    (c : Char) (newIdx : Nat) (l : List Nat) (best : Option Nat) (b : Nat)
    (hsort : l.Pairwise (· < ·))
    (hbelow : ∀ b0, best = some b0 → ∀ x ∈ l, b0 < x)
    (h : l.foldl (findBestStep oldChars usedOld c newIdx) best = some b) :
    (∀ x ∈ l, x ∉ usedOld → oldChars[x]? = some c →
      Nat.dist b newIdx < Nat.dist x newIdx ∨
        (Nat.dist b newIdx = Nat.dist x newIdx ∧ b ≤ x)) ∧
    (∀ b0, best = some b0 →
      Nat.dist b newIdx ≤ Nat.dist b0 newIdx ∧
        (Nat.dist b newIdx = Nat.dist b0 newIdx → b = b0)) := by
  induction l generalizing best with
  | nil =>
      refine ⟨by simp, fun b0 hb0 => ?_⟩
      rw [List.foldl_nil, hb0, Option.some.injEq] at h
      subst h
      exact ⟨le_rfl, fun _ => rfl⟩
  | cons x l ih =>
      rw [List.foldl_cons] at h
      have hxlt : ∀ y ∈ l, x < y := fun y hy => (List.pairwise_cons.mp hsort).1 y hy
      have hsort' := (List.pairwise_cons.mp hsort).2
      by_cases hused : x ∈ usedOld
      · rw [findBestStep_skip_used _ _ _ _ _ _ hused] at h
        obtain ⟨ih1, ih2⟩ := ih _ hsort'
          (fun b0 hb0 y hy => hbelow b0 hb0 y (List.mem_cons_of_mem _ hy)) h
        refine ⟨fun y hy hyu hyc => ?_, ih2⟩
        rcases List.mem_cons.mp hy with rfl | hy'
        · exact absurd hused hyu
        · exact ih1 y hy' hyu hyc
      · by_cases hchar : oldChars[x]? = some c
        · cases best with
          | none =>
              rw [findBestStep_none _ _ _ _ _ hused hchar] at h
              obtain ⟨ih1, ih2⟩ := ih _ hsort'
                (fun b0 hb0 y hy => by
                  rw [Option.some.injEq] at hb0
                  exact hb0 ▸ hxlt y hy) h
              refine ⟨fun y hy hyu hyc => ?_, by simp⟩
              rcases List.mem_cons.mp hy with rfl | hy'
              · obtain ⟨hle, heq⟩ := ih2 y rfl
                rcases lt_or_eq_of_le hle with hlt | heq2
                · exact Or.inl hlt
                · exact Or.inr ⟨heq2, le_of_eq (heq heq2)⟩
              · exact ih1 y hy' hyu hyc
          | some b0 =>
              by_cases hd : Nat.dist x newIdx < Nat.dist b0 newIdx
              · rw [findBestStep_improve _ _ _ _ _ _ hused hchar hd] at h
                obtain ⟨ih1, ih2⟩ := ih _ hsort'
                  (fun b1 hb1 y hy => by
                    rw [Option.some.injEq] at hb1
                    exact hb1 ▸ hxlt y hy) h
                obtain ⟨hle, heq⟩ := ih2 x rfl
                refine ⟨fun y hy hyu hyc => ?_, fun b1 hb1 => ?_⟩
                · rcases List.mem_cons.mp hy with rfl | hy'
                  · rcases lt_or_eq_of_le hle with hlt | heq2
                    · exact Or.inl hlt
                    · exact Or.inr ⟨heq2, le_of_eq (heq heq2)⟩
                  · exact ih1 y hy' hyu hyc
                · rw [Option.some.injEq] at hb1
                  subst hb1
                  exact ⟨le_of_lt (lt_of_le_of_lt hle hd),
                    fun hcontra => absurd (hcontra ▸ hd) (by omega)⟩
              · rw [findBestStep_keep _ _ _ _ _ _ hused hchar hd] at h
                obtain ⟨ih1, ih2⟩ := ih _ hsort'
                  (fun b1 hb1 y hy => by
                    rw [Option.some.injEq] at hb1
                    exact hb1 ▸ hbelow b1 (by rw [hb1]) y (List.mem_cons_of_mem _ hy)) h
                obtain ⟨hle, heq⟩ := ih2 b0 rfl
                refine ⟨fun y hy hyu hyc => ?_, fun b1 hb1 => ?_⟩
                · rcases List.mem_cons.mp hy with rfl | hy'
                  · push_neg at hd
                    rcases lt_or_eq_of_le (le_trans hle hd) with hlt | heq2
                    · exact Or.inl hlt
                    · refine Or.inr ⟨heq2, ?_⟩
                      have hbeq : b = b0 := heq (by omega)
                      exact le_of_lt (hbeq ▸ hbelow b0 rfl y (List.mem_cons_self _ _))
                  · exact ih1 y hy' hyu hyc
                · rw [Option.some.injEq] at hb1
                  subst hb1
                  exact ⟨hle, heq⟩
        · rw [findBestStep_skip_char _ _ _ _ _ _ hchar] at h
          obtain ⟨ih1, ih2⟩ := ih _ hsort'
            (fun b0 hb0 y hy => hbelow b0 hb0 y (List.mem_cons_of_mem _ hy)) h
          refine ⟨fun y hy hyu hyc => ?_, ih2⟩
          rcases List.mem_cons.mp hy with rfl | hy'
          · exact absurd hyc hchar
          · exact ih1 y hy' hyu hyc

/-- The scan `findBestOld` picks the closest unused matching old index, breaking
distance ties in favour of the lowest old index. -/
theorem findBestOld_min (oldChars : List Char) (usedOld : List Nat)
    (c : Char) (newIdx b : Nat)
    (h : findBestOld oldChars usedOld c newIdx = some b) :
    ∀ x, Candidate oldChars usedOld c x →
      Nat.dist b newIdx < Nat.dist x newIdx ∨
        (Nat.dist b newIdx = Nat.dist x newIdx ∧ b ≤ x) := by
  intro x hx
  have hmin := findBestOld_go_min oldChars usedOld c newIdx
    (List.range oldChars.length) none b (List.pairwise_lt_range _)
    (by simp) h
  exact hmin.1 x (List.mem_range.mpr hx.1) hx.2.1 hx.2.2

theorem getElem?_eq_some_getD (l : List Char) (j : Nat) (h : j < l.length) :
    l[j]? = some (l.getD j default) := by
  rw [List.getElem?_eq_getElem h, List.getD_eq_getElem l default h]

theorem exactMatches_nodup (oldChars newChars : List Char) :
    (exactMatches oldChars newChars).Nodup :=
  (List.nodup_range _).filter _

theorem mem_exactMatches (oldChars newChars : List Char) (i : Nat) :
    i ∈ exactMatches oldChars newChars ↔
      i < min oldChars.length newChars.length ∧
        oldChars[i]? = newChars[i]? := by
  simp [exactMatches, List.mem_filter, List.mem_range]

/-- The exact-position pass establishes the mapping invariant. -/
theorem pass1State_inv (oldChars newChars : List Char) (oldElements : List α) :
    MappingInv oldChars newChars oldElements
      (pass1State oldChars newChars oldElements) := by
  refine ⟨?_, ?_, ?_, ?_, ?_, ?_, ?_, ?_⟩
  · simp [pass1State, List.map_map, Function.comp_def]
  · simp [pass1State, List.map_map, Function.comp_def]
  · exact exactMatches_nodup _ _
  · exact exactMatches_nodup _ _
  · intro i hi
    have := (mem_exactMatches oldChars newChars i).mp hi
    exact lt_of_lt_of_le this.1 (Nat.min_le_left _ _)
  · intro j hj
    have := (mem_exactMatches oldChars newChars j).mp hj
    exact lt_of_lt_of_le this.1 (Nat.min_le_right _ _)
  · intro k hk
    simp only [pass1State, List.mem_map] at hk
    obtain ⟨i, hi, rfl⟩ := hk
    exact ((mem_exactMatches oldChars newChars i).mp hi).2
  · intro k hk
    simp only [pass1State, List.mem_map] at hk
    obtain ⟨i, hi, rfl⟩ := hk
    rfl

/-- One proximity-pass iteration preserves the mapping invariant. -/
theorem pass2Step_inv (oldChars newChars : List Char) (oldElements : List α)
    (st : MappingState α) (j : Nat) (hj : j < newChars.length)
    (hinv : MappingInv oldChars newChars oldElements st) :
    MappingInv oldChars newChars oldElements
      (pass2Step oldChars oldElements st j (newChars.getD j default)) := by
  unfold pass2Step
  by_cases hjused : j ∈ st.usedNew
  · rw [if_pos hjused]
    exact hinv
  · rw [if_neg hjused]
    cases hfb : findBestOld oldChars st.usedOld (newChars.getD j default) j with
    | none => exact hinv
    | some b =>
        obtain ⟨hblt, hbused, hbchar⟩ := findBestOld_candidate _ _ _ _ _ hfb
        refine ⟨?_, ?_, ?_, ?_, ?_, ?_, ?_, ?_⟩
        · simp [hinv.usedOld_eq]
        · simp [hinv.usedNew_eq]
        · simp [List.nodup_append, hinv.nodupOld, hbused]
        · simp [List.nodup_append, hinv.nodupNew, hjused]
        · intro i hi
          rcases List.mem_append.mp hi with hi | hi
          · exact hinv.ltOld i hi
          · simp only [List.mem_singleton] at hi
            exact hi ▸ hblt
        · intro i hi
          rcases List.mem_append.mp hi with hi | hi
          · exact hinv.ltNew i hi
          · simp only [List.mem_singleton] at hi
            exact hi ▸ hj
        · intro k hk
          rcases List.mem_append.mp hk with hk | hk
          · exact hinv.chars_eq k hk
          · simp only [List.mem_singleton] at hk
            subst hk
            show oldChars[b]? = newChars[j]?
            rw [getElem?_eq_some_getD newChars j hj]
            exact hbchar
        · intro k hk
          rcases List.mem_append.mp hk with hk | hk
          · exact hinv.elem_eq k hk
          · simp only [List.mem_singleton] at hk
            subst hk
            rfl

/-- The proximity-pass fold preserves the mapping invariant for any list
of in-range new indices. -/
theorem pass2_go_inv (oldChars newChars : List Char) (oldElements : List α) :
    ∀ (l : List Nat), (∀ j ∈ l, j < newChars.length) →
    ∀ st : MappingState α, MappingInv oldChars newChars oldElements st →
    MappingInv oldChars newChars oldElements
      (l.foldl
        (fun st j => pass2Step oldChars oldElements st j (newChars.getD j default))
        st)
  | [], _, _, hinv => hinv
  | j :: l, hl, st, hinv => by
      rw [List.foldl_cons]
      exact pass2_go_inv oldChars newChars oldElements l
        (fun y hy => hl y (List.mem_cons_of_mem _ hy)) _
        (pass2Step_inv oldChars newChars oldElements st j
          (hl j (List.mem_cons_self _ _)) hinv)

/-- The final `smartMapping` state satisfies the invariant. -/
theorem smartState_inv (oldChars newChars : List Char) (oldElements : List α) :
    MappingInv oldChars newChars oldElements
      (smartState oldChars newChars oldElements) :=
  pass2_go_inv oldChars newChars oldElements _
    (fun _ hj => List.mem_range.mp hj) _
    (pass1State_inv oldChars newChars oldElements)

theorem length_filter_add_length_filter_not {β : Type} (l : List β)
    (p : β → Bool) :
    (l.filter p).length + (l.filter (fun a => !(p a))).length = l.length := by
  induction l with
  | nil => rfl
  | cons x l ih =>
      cases hx : p x <;> simp [List.filter_cons, hx, ← ih] <;> omega

/-- Counting lemma: the unconsumed indices below `n` number
`n - used.length` when `used` is duplicate-free and below `n`. -/
theorem length_filter_not_mem (n : Nat) (used : List Nat)
    (hnodup : used.Nodup) (hlt : ∀ i ∈ used, i < n) :
    ((List.range n).filter (fun i => decide (i ∉ used))).length =
      n - used.length := by
  have hperm : List.Perm ((List.range n).filter (fun i => decide (i ∈ used))) used := by
    apply List.perm_of_nodup_nodup_toFinset_eq
      ((List.nodup_range n).filter _) hnodup
    ext a
    simp only [List.mem_toFinset, List.mem_filter, List.mem_range,
      decide_eq_true_eq]
    exact ⟨fun h => h.2, fun h => ⟨hlt a h, h⟩⟩
  have hmemlen : ((List.range n).filter (fun i => decide (i ∈ used))).length =
      used.length := hperm.length_eq
  have hsplit := length_filter_add_length_filter_not (List.range n)
    (fun i => decide (i ∈ used))
  have hnot : (List.range n).filter (fun i => !(decide (i ∈ used))) =
      (List.range n).filter (fun i => decide (i ∉ used)) := by
    simp
  rw [hnot] at hsplit
  rw [hmemlen, List.length_range] at hsplit
  omega

theorem nodup_lt_length_le (n : Nat) (used : List Nat) (hnodup : used.Nodup)
    (hlt : ∀ i ∈ used, i < n) : used.length ≤ n := by
  have hsub : used.toFinset ⊆ Finset.range n := by
    intro a ha
    rw [Finset.mem_range]
    exact hlt a (List.mem_toFinset.mp ha)
  have := Finset.card_le_card hsub
  rwa [List.toFinset_card_of_nodup hnodup, Finset.card_range] at this

theorem toList_length (s : String) : s.toList.length = s.length := rfl

theorem smartMapping_keep_eq (oldText newText : String)
    (oldElements : List α) :
    (smartMapping oldText newText oldElements).keep =
      (smartState oldText.toList newText.toList oldElements).keep := rfl

theorem smartMapping_removeIdx (oldText newText : String)
    (oldElements : List α) :
    (smartMapping oldText newText oldElements).remove.map RemoveItem.index =
      (List.range oldText.toList.length).filter
        (fun i =>
          decide (i ∉ (smartState oldText.toList newText.toList oldElements).usedOld)) := by
  simp [smartMapping, List.map_map, Function.comp_def]

theorem smartMapping_addIdx (oldText newText : String)
    (oldElements : List α) :
    (smartMapping oldText newText oldElements).add.map AddItem.index =
      (List.range newText.toList.length).filter
        (fun j =>
          decide (j ∉ (smartState oldText.toList newText.toList oldElements).usedNew)) := by
  simp [smartMapping, List.map_map, Function.comp_def]

/-- C1: the smart alignment is a complete partition of positions.  Every
index of the new text occurs exactly once across `keep.newIndex` and
`add.index`, every index of the old text exactly once across
`keep.oldIndex` and `remove.index`, and the sizes add up:
`|keep| + |remove| = |old|` and `|keep| + |add| = |new|`. -/
theorem smartMapping_alignment_complete (oldText newText : String)
    (oldElements : List α) (_h : oldElements.length = oldText.length) :
    (∀ j, j < newText.length →
      ((smartMapping oldText newText oldElements).keep.map
          KeepItem.newIndex).count j +
        ((smartMapping oldText newText oldElements).add.map
          AddItem.index).count j = 1) ∧
    (∀ i, i < oldText.length →
      ((smartMapping oldText newText oldElements).keep.map
          KeepItem.oldIndex).count i +
        ((smartMapping oldText newText oldElements).remove.map
          RemoveItem.index).count i = 1) ∧
    (smartMapping oldText newText oldElements).keep.length +
      (smartMapping oldText newText oldElements).remove.length =
        oldText.length ∧
    (smartMapping oldText newText oldElements).keep.length +
      (smartMapping oldText newText oldElements).add.length =
        newText.length := by
  have hinv := smartState_inv oldText.toList newText.toList oldElements
  have hkeepNew : (smartMapping oldText newText oldElements).keep.map
      KeepItem.newIndex =
      (smartState oldText.toList newText.toList oldElements).usedNew := by
    rw [smartMapping_keep_eq, ← hinv.usedNew_eq]
  have hkeepOld : (smartMapping oldText newText oldElements).keep.map
      KeepItem.oldIndex =
      (smartState oldText.toList newText.toList oldElements).usedOld := by
    rw [smartMapping_keep_eq, ← hinv.usedOld_eq]
  have hkeeplen1 : (smartMapping oldText newText oldElements).keep.length =
      (smartState oldText.toList newText.toList oldElements).usedNew.length := by
    rw [← hkeepNew, List.length_map]
  have hkeeplen2 : (smartMapping oldText newText oldElements).keep.length =
      (smartState oldText.toList newText.toList oldElements).usedOld.length := by
    rw [← hkeepOld, List.length_map]
  refine ⟨fun j hj => ?_, fun i hi => ?_, ?_, ?_⟩
  · rw [hkeepNew]
    have haddIdx := smartMapping_addIdx oldText newText oldElements
    by_cases hmem : j ∈ (smartState oldText.toList newText.toList oldElements).usedNew
    · have h1 : ((smartState oldText.toList newText.toList oldElements).usedNew).count j = 1 :=
        List.count_eq_one_of_mem hinv.nodupNew hmem
      have h0 : ((smartMapping oldText newText oldElements).add.map AddItem.index).count j = 0 := by
        rw [List.count_eq_zero, haddIdx]
        intro hcontra
        have := List.mem_filter.mp hcontra
        simp only [decide_eq_true_eq] at this
        exact this.2 hmem
      omega
    · have h1 : ((smartState oldText.toList newText.toList oldElements).usedNew).count j = 0 := by
        rw [List.count_eq_zero]
        exact hmem
      have h0 : ((smartMapping oldText newText oldElements).add.map AddItem.index).count j = 1 := by
        rw [haddIdx]
        refine List.count_eq_one_of_mem ((List.nodup_range _).filter _) ?_
        rw [List.mem_filter, List.mem_range, toList_length]
        exact ⟨hj, by simpa using hmem⟩
      omega
  · rw [hkeepOld]
    have hremIdx := smartMapping_removeIdx oldText newText oldElements
    by_cases hmem : i ∈ (smartState oldText.toList newText.toList oldElements).usedOld
    · have h1 : ((smartState oldText.toList newText.toList oldElements).usedOld).count i = 1 :=
        List.count_eq_one_of_mem hinv.nodupOld hmem
      have h0 : ((smartMapping oldText newText oldElements).remove.map RemoveItem.index).count i = 0 := by
        rw [List.count_eq_zero, hremIdx]
        intro hcontra
        have := List.mem_filter.mp hcontra
        simp only [decide_eq_true_eq] at this
        exact this.2 hmem
      omega
    · have h1 : ((smartState oldText.toList newText.toList oldElements).usedOld).count i = 0 := by
        rw [List.count_eq_zero]
        exact hmem
      have h0 : ((smartMapping oldText newText oldElements).remove.map RemoveItem.index).count i = 1 := by
        rw [hremIdx]
        refine List.count_eq_one_of_mem ((List.nodup_range _).filter _) ?_
        rw [List.mem_filter, List.mem_range, toList_length]
        exact ⟨hi, by simpa using hmem⟩
      omega
  · have hrl : (smartMapping oldText newText oldElements).remove.length =
        oldText.length -
          (smartState oldText.toList newText.toList oldElements).usedOld.length := by
      have : (smartMapping oldText newText oldElements).remove.length =
          ((smartMapping oldText newText oldElements).remove.map RemoveItem.index).length := by
        rw [List.length_map]
      rw [this, smartMapping_removeIdx, toList_length]
      exact length_filter_not_mem _ _ hinv.nodupOld
        (fun i hi => by rw [← toList_length]; exact hinv.ltOld i hi)
    have hle : (smartState oldText.toList newText.toList oldElements).usedOld.length ≤
        oldText.length :=
      nodup_lt_length_le _ _ hinv.nodupOld
        (fun i hi => by rw [← toList_length]; exact hinv.ltOld i hi)
    omega
  · have hal : (smartMapping oldText newText oldElements).add.length =
        newText.length -
          (smartState oldText.toList newText.toList oldElements).usedNew.length := by
      have : (smartMapping oldText newText oldElements).add.length =
          ((smartMapping oldText newText oldElements).add.map AddItem.index).length := by
        rw [List.length_map]
      rw [this, smartMapping_addIdx, toList_length]
      exact length_filter_not_mem _ _ hinv.nodupNew
        (fun j hj => by rw [← toList_length]; exact hinv.ltNew j hj)
    have hle : (smartState oldText.toList newText.toList oldElements).usedNew.length ≤
        newText.length :=
      nodup_lt_length_le _ _ hinv.nodupNew
        (fun j hj => by rw [← toList_length]; exact hinv.ltNew j hj)
    omega

theorem smartMapping_alignment_complete_witness :
    ([10, 11, 12] : List Nat).length = ("cat" : String).length ∧
    ((∀ j, j < ("cats" : String).length →
      ((smartMapping "cat" "cats" ([10, 11, 12] : List Nat)).keep.map
          KeepItem.newIndex).count j +
        ((smartMapping "cat" "cats" ([10, 11, 12] : List Nat)).add.map
          AddItem.index).count j = 1) ∧
    (∀ i, i < ("cat" : String).length →
      ((smartMapping "cat" "cats" ([10, 11, 12] : List Nat)).keep.map
          KeepItem.oldIndex).count i +
        ((smartMapping "cat" "cats" ([10, 11, 12] : List Nat)).remove.map
          RemoveItem.index).count i = 1) ∧
    (smartMapping "cat" "cats" ([10, 11, 12] : List Nat)).keep.length +
      (smartMapping "cat" "cats" ([10, 11, 12] : List Nat)).remove.length =
        ("cat" : String).length ∧
    (smartMapping "cat" "cats" ([10, 11, 12] : List Nat)).keep.length +
      (smartMapping "cat" "cats" ([10, 11, 12] : List Nat)).add.length =
        ("cats" : String).length) :=
  ⟨by decide, smartMapping_alignment_complete "cat" "cats" [10, 11, 12] (by decide)⟩

/-- C2: every `keep` pair produced by the smart alignment points at equal
characters: `oldText[oldIndex] === newText[newIndex]` (and both indices
are in range). -/
theorem smartMapping_keep_correct (oldText newText : String)
    (oldElements : List α) (_h : oldElements.length = oldText.length) :
    ∀ k ∈ (smartMapping oldText newText oldElements).keep,
      k.oldIndex < oldText.length ∧ k.newIndex < newText.length ∧
        oldText.toList[k.oldIndex]? = newText.toList[k.newIndex]? := by
  intro k hk
  have hinv := smartState_inv oldText.toList newText.toList oldElements
  rw [smartMapping_keep_eq] at hk
  have hko : k.oldIndex ∈
      (smartState oldText.toList newText.toList oldElements).usedOld := by
    rw [hinv.usedOld_eq]
    exact List.mem_map_of_mem _ hk
  have hkn : k.newIndex ∈
      (smartState oldText.toList newText.toList oldElements).usedNew := by
    rw [hinv.usedNew_eq]
    exact List.mem_map_of_mem _ hk
  refine ⟨?_, ?_, hinv.chars_eq k hk⟩
  · rw [← toList_length]
    exact hinv.ltOld _ hko
  · rw [← toList_length]
    exact hinv.ltNew _ hkn

/-- C4: in the proximity pass, processed in increasing new-index order, an
unmatched new index `j` whose `findBestOld` scan succeeds is paired with a
not-yet-consumed old index holding the character `newText[j]`, of minimal
distance `|oldIndex - j|` among all such indices, ties broken by the
lowest old index; the step then consumes both indices. -/
theorem pass2Step_picks_nearest (oldChars newChars : List Char)
    (oldElements : List α) (st : MappingState α) (j b : Nat)
    (hj : j < newChars.length) (hjun : j ∉ st.usedNew)
    (hb : findBestOld oldChars st.usedOld (newChars.getD j default) j = some b) :
    (b ∉ st.usedOld ∧ oldChars[b]? = newChars[j]?) ∧
    (∀ x, x ∉ st.usedOld → oldChars[x]? = newChars[j]? →
      Nat.dist b j < Nat.dist x j ∨
        (Nat.dist b j = Nat.dist x j ∧ b ≤ x)) ∧
    (pass2Step oldChars oldElements st j (newChars.getD j default)).keep =
      st.keep ++ [⟨b, j, oldElements[b]?⟩] ∧
    (pass2Step oldChars oldElements st j (newChars.getD j default)).usedOld =
      st.usedOld ++ [b] ∧
    (pass2Step oldChars oldElements st j (newChars.getD j default)).usedNew =
      st.usedNew ++ [j] := by
  obtain ⟨hblt, hbused, hbchar⟩ := findBestOld_candidate _ _ _ _ _ hb
  have hjc : newChars[j]? = some (newChars.getD j default) :=
    getElem?_eq_some_getD newChars j hj
  refine ⟨⟨hbused, by rw [hbchar, hjc]⟩, fun x hxu hxc => ?_, ?_, ?_, ?_⟩
  · have hxc' : oldChars[x]? = some (newChars.getD j default) := by
      rw [hxc, hjc]
    have hxlt : x < oldChars.length := by
      rcases List.getElem?_eq_some.mp hxc' with ⟨hlt, _⟩
      exact hlt
    exact findBestOld_min _ _ _ _ _ hb x ⟨hxlt, hxu, hxc'⟩
  · unfold pass2Step
    rw [if_neg hjun, hb]
  · unfold pass2Step
    rw [if_neg hjun, hb]
  · unfold pass2Step
    rw [if_neg hjun, hb]

theorem pass2Step_picks_nearest_witness :
    (0 < (['b', 'a'] : List Char).length) ∧
    (0 ∉ (⟨[], [], []⟩ : MappingState Nat).usedNew) ∧
    findBestOld ['a', 'b'] (⟨[], [], []⟩ : MappingState Nat).usedOld
      ((['b', 'a'] : List Char).getD 0 default) 0 = some 1 ∧
    (((1 : Nat) ∉ (⟨[], [], []⟩ : MappingState Nat).usedOld ∧
      (['a', 'b'] : List Char)[(1 : Nat)]? = (['b', 'a'] : List Char)[(0 : Nat)]?) ∧
    (∀ x, x ∉ (⟨[], [], []⟩ : MappingState Nat).usedOld →
      (['a', 'b'] : List Char)[x]? = (['b', 'a'] : List Char)[(0 : Nat)]? →
      Nat.dist 1 0 < Nat.dist x 0 ∨
        (Nat.dist 1 0 = Nat.dist x 0 ∧ 1 ≤ x)) ∧
    (pass2Step ['a', 'b'] ([10, 11] : List Nat) ⟨[], [], []⟩ 0
        ((['b', 'a'] : List Char).getD 0 default)).keep =
      (⟨[], [], []⟩ : MappingState Nat).keep ++ [⟨1, 0, ([10, 11] : List Nat)[(1 : Nat)]?⟩] ∧
    (pass2Step ['a', 'b'] ([10, 11] : List Nat) ⟨[], [], []⟩ 0
        ((['b', 'a'] : List Char).getD 0 default)).usedOld =
      (⟨[], [], []⟩ : MappingState Nat).usedOld ++ [1] ∧
    (pass2Step ['a', 'b'] ([10, 11] : List Nat) ⟨[], [], []⟩ 0
        ((['b', 'a'] : List Char).getD 0 default)).usedNew =
      (⟨[], [], []⟩ : MappingState Nat).usedNew ++ [0]) :=
  ⟨by decide, by decide, by decide,
    pass2Step_picks_nearest ['a', 'b'] ['b', 'a'] [10, 11] ⟨[], [], []⟩ 0 1
      (by decide) (by decide) (by decide)⟩

/-- The proximity-pass fold is the identity when every scanned new index
is already consumed. -/
theorem pass2_go_fixed (oldChars newChars : List Char) (oldElements : List α) :
    ∀ (l : List Nat) (st : MappingState α), (∀ j ∈ l, j ∈ st.usedNew) →
    l.foldl
      (fun st j => pass2Step oldChars oldElements st j (newChars.getD j default))
      st = st
  | [], _, _ => rfl
  | j :: l, st, h => by
      rw [List.foldl_cons]
      have hstep : pass2Step oldChars oldElements st j (newChars.getD j default)
          = st := by
        unfold pass2Step
        rw [if_pos (h j (List.mem_cons_self _ _))]
      rw [hstep]
      exact pass2_go_fixed oldChars newChars oldElements l st
        (fun y hy => h y (List.mem_cons_of_mem _ hy))

theorem exactMatches_self (chars : List Char) :
    exactMatches chars chars = List.range chars.length := by
  unfold exactMatches
  rw [min_self]
  apply List.filter_eq_self.mpr
  intro i _
  simp

/-- C7: aligning a string with itself (with a matching element list)
keeps every position at identical old/new indices and removes and adds
nothing. -/
theorem smartMapping_same_text (s : String) (oldElements : List α)
    (_h : oldElements.length = s.length) :
    smartMapping s s oldElements =
      { keep := (List.range s.length).map (fun i => ⟨i, i, oldElements[i]?⟩)
        remove := []
        add := [] } := by
  have hstate : smartState s.toList s.toList oldElements =
      pass1State s.toList s.toList oldElements := by
    unfold smartState pass2
    apply pass2_go_fixed
    intro j hj
    show j ∈ (pass1State s.toList s.toList oldElements).usedNew
    unfold pass1State
    rw [exactMatches_self]
    simpa using hj
  have husedOld : (smartState s.toList s.toList oldElements).usedOld =
      List.range s.toList.length := by
    rw [hstate]
    unfold pass1State
    rw [exactMatches_self]
  have husedNew : (smartState s.toList s.toList oldElements).usedNew =
      List.range s.toList.length := by
    rw [hstate]
    unfold pass1State
    rw [exactMatches_self]
  unfold smartMapping
  refine CharacterMapping.mk.injEq _ _ _ _ _ _ ▸ ⟨?_, ?_, ?_⟩
  · rw [hstate]
    unfold pass1State
    rw [exactMatches_self]
    rfl
  · rw [husedOld]
    have : (List.range s.toList.length).filter
        (fun i => decide (i ∉ List.range s.toList.length)) = [] := by
      apply List.filter_eq_nil_iff.mpr
      intro a ha
      simpa using List.mem_range.mp ha
    rw [this]
    rfl
  · rw [husedNew]
    have : (List.range s.toList.length).filter
        (fun j => decide (j ∉ List.range s.toList.length)) = [] := by
      apply List.filter_eq_nil_iff.mpr
      intro a ha
      simpa using List.mem_range.mp ha
    rw [this]
    rfl

theorem smartMapping_same_text_witness :
    ([7, 8, 9] : List Nat).length = ("cat" : String).length ∧
    smartMapping "cat" "cat" ([7, 8, 9] : List Nat) =
      { keep := (List.range ("cat" : String).length).map
          (fun i => ⟨i, i, ([7, 8, 9] : List Nat)[i]?⟩)
        remove := []
        add := [] } :=
  ⟨by decide, smartMapping_same_text "cat" [7, 8, 9] (by decide)⟩

/-- C5 evaluation: the engine performs no length-precondition check.
With `oldElements = [42]` (length 1) but `oldText = "ab"` (length 2),
`smartMapping` silently returns a complete plan; the keep entry for index
1 carries the out-of-range element reference (`undefined` in JS, `none`
here) instead of any error being raised. -/
theorem smartMapping_no_length_check :
    smartMapping "ab" "ab" ([42] : List Nat) =
      { keep := [⟨0, 0, some 42⟩, ⟨1, 1, none⟩]
        remove := []
        add := [] } := by decide

theorem smartMapping_keep_correct_witness :
    ([10, 11, 12] : List Nat).length = ("cat" : String).length ∧
    (⟨0, 0, some 10⟩ : KeepItem Nat) ∈
      (smartMapping "cat" "cats" ([10, 11, 12] : List Nat)).keep ∧
    ((⟨0, 0, some 10⟩ : KeepItem Nat).oldIndex < ("cat" : String).length ∧
      (⟨0, 0, some 10⟩ : KeepItem Nat).newIndex < ("cats" : String).length ∧
      ("cat" : String).toList[(⟨0, 0, some 10⟩ : KeepItem Nat).oldIndex]? =
        ("cats" : String).toList[(⟨0, 0, some 10⟩ : KeepItem Nat).newIndex]?) :=
  ⟨by decide, by decide,
    smartMapping_keep_correct "cat" "cats" [10, 11, 12] (by decide) _ (by decide)⟩

/-! ## The canonical DOM-rebuild transition (second variant, lines 668-894)

`TextTransition.transition` first kills all tweens on the old elements,
then branches on the strategy.  `smartTransition` builds a `Map` from
characters to queues of old elements, rebuilds the complete new child
sequence (reusing queue heads first-in-first-out), and schedules three
timeline phases: fade-out of leftovers at position `0`, the single
container rebuild call at `removeDuration * 0.3`, and fade-in of the
fresh elements at `removeDuration * 0.5`.  The embedding represents the
synchronous effects (`gsap.killTweensOf`, `gsap.set`) as an ordered list
and the timeline as a list of positioned entries that execute only once
the timeline plays, after `transition` has returned. -/

/-- An element of the rebuilt child sequence: a reused old element, or a
fresh one created by `wrapperFactory.createCharElement(char, newIndex)`,
identified by its new index and character. -/
inductive NewElem (α : Type)
  | reused (e : α)
  | fresh (index : Nat) (ch : Char)
deriving Repr, DecidableEq

/-- The character displayed by an element of the rebuilt sequence, given
the character displayed by each old element. -/
def displayedChar (charOf : α → Char) : NewElem α → Char
  | .reused e => charOf e
  | .fresh _ c => c

/-- Whether an element of the rebuilt sequence is freshly created. -/
def NewElem.isFresh : NewElem α → Bool
  | .reused _ => false
  | .fresh _ _ => true

/-- The `oldElementMap`: a JS `Map` from characters to queues of old
elements, embedded as an association list in key-insertion order (the
iteration order of a JS `Map`). -/
abbrev ElemMap (α : Type) := List (Char × List α)

/-- Embedding of `oldElementMap.get(char)`. -/
def mapGet (m : ElemMap α) (c : Char) : Option (List α) :=
  (m.find? (fun p => p.1 == c)).map Prod.snd

/-- The queue stored for `c`, reading a missing key as the empty queue. -/
def lookupList (m : ElemMap α) (c : Char) : List α :=
  (mapGet m c).getD []

/-- The key list of the map, in insertion order. -/
def mapKeys (m : ElemMap α) : List Char :=
  m.map Prod.fst

/-- Embedding of `oldElementMap.get(char).push(el)` with `set(char, [])` on first use
(which appends the new key at the end). -/
def mapPush (m : ElemMap α) (c : Char) (e : α) : ElemMap α :=
  match m with
  | [] => [(c, [e])]
  | (c', l) :: rest =>
      if c' = c then (c', l ++ [e]) :: rest
      else (c', l) :: mapPush rest c e

/-- Embedding of `availableOldElements.shift()`: the map after removing the head of the
queue stored for `c` (the shifted element itself is read off with
`mapGet` before shifting). -/
def mapShift (m : ElemMap α) (c : Char) : ElemMap α :=
  match m with
  | [] => []
  | (c', l) :: rest =>
      if c' = c then (c', l.tail) :: rest
      else (c', l) :: mapShift rest c

/-- Building `oldElementMap`: `oldElements.forEach((el, index) => ...)`
keyed by `oldChars[index]`, embedded over the zipped list (the alignment
precondition `oldElements.length === oldText.length` makes the zip
total). -/
def buildOldMap (pairs : List (Char × α)) : ElemMap α :=
  pairs.foldl (fun m p => mapPush m p.1 p.2) []

/-- The `newChars.forEach` loop of `smartTransition`: reuse the queue head
for the character when available (consuming it), otherwise create a fresh
element at the current new index.  Returns the complete child sequence,
`elementsToAdd` (the fresh elements, in order), and the remaining map
(whose leftover queue contents become `elementsToRemove`). -/
def buildNew (m : ElemMap α) (newChars : List Char) (j : Nat) :
    List (NewElem α) × List (NewElem α) × ElemMap α :=
  match newChars with
  | [] => ([], [], m)
  | c :: cs =>
      match mapGet m c with
      | some (e :: _) =>
          let r := buildNew (mapShift m c) cs (j + 1)
          (NewElem.reused e :: r.1, r.2.1, r.2.2)
      | _ =>
          let r := buildNew m cs (j + 1)
          (NewElem.fresh j c :: r.1, NewElem.fresh j c :: r.2.1, r.2.2)

/-- The `elementsToRemove` collection: the leftover queue contents of the map, iterated
in key-insertion order. -/
def leftoverElems (m : ElemMap α) : List α :=
  m.flatMap Prod.snd

/-- The first `k` occurrences of `c` in the old text, as the old elements
displaying `c` in increasing old-index order. -/
def occElems (oldChars : List Char) (oldElements : List α) (c : Char) :
    List α :=
  ((oldChars.zip oldElements).filter (fun p => p.1 == c)).map Prod.snd

/-- Visual state applied instantly by `gsap.set`. -/
inductive Visual
  | visible
  | hidden
deriving Repr, DecidableEq

/-- Synchronous effects performed while `transition` executes, in order:
`gsap.killTweensOf(oldElements)` and the `gsap.set` calls on reused
(reset to fully visible) and fresh (initialised hidden) elements. -/
inductive SyncEffect (α : Type)
  | killTweens (elems : List α)
  | setReused (e : α) (v : Visual)
  | setFresh (index : Nat) (ch : Char) (v : Visual)
deriving Repr, DecidableEq

/-- Entries placed on the GSAP timeline with their start position (in
seconds); they run only once the timeline plays, after `transition` has
already returned. -/
inductive TimelineEntry (α : Type)
  | tweenRemove (elems : List α) (pos : ℚ)
  | rebuild (children : List (NewElem α)) (pos : ℚ)
  | tweenAdd (elems : List (NewElem α)) (pos : ℚ)
deriving Repr, DecidableEq

/-- Transition options (`DEFAULT_TRANSITION_OPTIONS` without the strategy,
which is passed separately). -/
structure TransitionOpts where
  addDuration : ℚ
  removeDuration : ℚ
  stagger : ℚ
  ease : String
deriving Repr, DecidableEq

/-- The defaults: `addDuration 0.4`, `removeDuration 0.4`,
`stagger 0.02`, `ease power2.out`. -/
def defaultOpts : TransitionOpts :=
  { addDuration := 2/5, removeDuration := 2/5, stagger := 1/50
    ease := "power2.out" }

/-- Transition strategy. -/
inductive Strategy
  | smart
  | sequential
  | replace
deriving Repr, DecidableEq

/-- The `gsap.set` effects issued while the new structure is built, in
new-index order: reused elements are reset to fully visible, fresh ones
initialised hidden. -/
def buildSyncEffects (l : List (NewElem α)) : List (SyncEffect α) :=
  l.map fun e =>
    match e with
    | .reused e => .setReused e .visible
    | .fresh j c => .setFresh j c .hidden

/-- Embedding of `TextTransition.smartTransition` as (synchronous effects, timeline):
fade out leftovers at `0`, rebuild the container at
`removeDuration * 0.3`, fade in fresh elements at
`removeDuration * 0.5`. -/
def smartTransition (oldChars newChars : List Char) (oldElements : List α)
    (opts : TransitionOpts) :
    List (SyncEffect α) × List (TimelineEntry α) :=
  let r := buildNew (buildOldMap (oldChars.zip oldElements)) newChars 0
  let toRemove := leftoverElems r.2.2
  ( buildSyncEffects r.1,
    (if toRemove.length > 0 then
        [TimelineEntry.tweenRemove toRemove 0]
      else [])
    ++ [TimelineEntry.rebuild r.1 (opts.removeDuration * (3/10))]
    ++ (if r.2.1.length > 0 then
        [TimelineEntry.tweenAdd r.2.1 (opts.removeDuration * (1/2))]
      else []) )

/-- Embedding of `TextTransition.sequentialTransition`: pre-create all fresh elements
hidden, fade out all old elements at `0`, replace the container contents
at `removeDuration`, fade the fresh elements in shortly after the
rebuild (`+= removeDuration * 0.05` relative to the timeline end, where a
staggered tween over `n` elements lasts `duration + stagger * (n - 1)`). -/
def sequentialTransition (newChars : List Char) (oldElements : List α)
    (opts : TransitionOpts) :
    List (SyncEffect α) × List (TimelineEntry α) :=
  let newElems := (List.range newChars.length).map
    (fun j => NewElem.fresh j (newChars.getD j default))
  let tlEnd : ℚ :=
    if oldElements.length > 0 then
      max (opts.removeDuration + opts.stagger * ((oldElements.length : ℚ) - 1))
        opts.removeDuration
    else opts.removeDuration
  ( buildSyncEffects newElems,
    (if oldElements.length > 0 then
        [TimelineEntry.tweenRemove oldElements 0]
      else [])
    ++ [TimelineEntry.rebuild newElems opts.removeDuration]
    ++ [TimelineEntry.tweenAdd newElems (tlEnd + opts.removeDuration * (1/20))] )

/-- Embedding of `TextTransition.transition` (the canonical DOM-rebuild variant): kill
all in-flight tweens on the old elements first (when there are any), then
dispatch on the strategy — `sequential` uses the sequential rebuild,
`smart` and `replace` the smart one. -/
def transition (strategy : Strategy) (oldText newText : String)
    (oldElements : List α) (opts : TransitionOpts) :
    List (SyncEffect α) × List (TimelineEntry α) :=
  let kill : List (SyncEffect α) :=
    if oldElements.length > 0 then [SyncEffect.killTweens oldElements]
    else []
  match strategy with
  | .sequential =>
      let r := sequentialTransition newText.toList oldElements opts
      (kill ++ r.1, r.2)
  | _ =>
      let r := smartTransition oldText.toList newText.toList oldElements opts
      (kill ++ r.1, r.2)

/-- The container children as a function of timeline playhead time: the
only structural mutation is the rebuild call, which replaces the whole
child sequence once the playhead reaches its position.  At `t = 0` —
immediately after `transition` returns — no timeline entry has run. -/
def containerAt (initialChildren : List (NewElem α))
    (tl : List (TimelineEntry α)) (t : ℚ) : List (NewElem α) :=
  tl.foldl
    (fun cur entry =>
      match entry with
      | .rebuild children pos => if pos ≤ t then children else cur
      | _ => cur)
    initialChildren

/-- The full execution order of one `transition` call: the synchronous
effects in order, followed by the timeline entries (which run only after
the call returns). -/
def executionTrace (r : List (SyncEffect α) × List (TimelineEntry α)) :
    List (SyncEffect α ⊕ TimelineEntry α) :=
  r.1.map Sum.inl ++ r.2.map Sum.inr

example :
    (transition Strategy.smart "Hi" "Hey" (['H', 'i'] : List Char)
        defaultOpts).2 =
      [TimelineEntry.tweenRemove ['i'] 0,
        TimelineEntry.rebuild
          [NewElem.reused 'H', NewElem.fresh 1 'e', NewElem.fresh 2 'y']
          (defaultOpts.removeDuration * (3/10)),
        TimelineEntry.tweenAdd [NewElem.fresh 1 'e', NewElem.fresh 2 'y']
          (defaultOpts.removeDuration * (1/2))] := rfl

/-! ## Properties of the character-keyed element map -/

theorem lookupList_nil (c : Char) : lookupList ([] : ElemMap α) c = [] := rfl

theorem lookupList_cons (c' : Char) (l : List α) (rest : ElemMap α)
    (c : Char) :
    lookupList ((c', l) :: rest) c =
      if c' = c then l else lookupList rest c := by
  by_cases h : c' = c <;> simp [lookupList, mapGet, List.find?_cons, h]

theorem lookupList_mapPush (m : ElemMap α) (c : Char) (e : α) (c' : Char) :
    lookupList (mapPush m c e) c' =
      lookupList m c' ++ (if c = c' then [e] else []) := by
  induction m with
  | nil =>
      by_cases h : c = c' <;>
        simp [mapPush, lookupList_cons, lookupList_nil, h]
  | cons p rest ih =>
      obtain ⟨c0, l⟩ := p
      by_cases h0 : c0 = c
      · subst h0
        rw [show mapPush ((c0, l) :: rest) c0 e = (c0, l ++ [e]) :: rest from
          by simp [mapPush]]
        by_cases h1 : c0 = c'
        · subst h1
          simp [lookupList_cons]
        · simp [lookupList_cons, h1]
      · rw [show mapPush ((c0, l) :: rest) c e =
          (c0, l) :: mapPush rest c e from by simp [mapPush, h0]]
        by_cases h1 : c0 = c'
        · subst h1
          have hcc' : ¬ c = c0 := fun h => h0 h.symm
          simp [lookupList_cons, hcc']
        · simp [lookupList_cons, h1, ih]

theorem mapKeys_mapPush (m : ElemMap α) (c : Char) (e : α) :
    mapKeys (mapPush m c e) =
      if c ∈ mapKeys m then mapKeys m else mapKeys m ++ [c] := by
  induction m with
  | nil => simp [mapPush, mapKeys]
  | cons p rest ih =>
      obtain ⟨c0, l⟩ := p
      by_cases h0 : c0 = c
      · subst h0
        simp [mapPush, mapKeys]
      · rw [show mapPush ((c0, l) :: rest) c e =
          (c0, l) :: mapPush rest c e from by simp [mapPush, h0]]
        have hne : c ≠ c0 := fun h => h0 h.symm
        have hmemiff : c ∈ mapKeys ((c0, l) :: rest) ↔ c ∈ mapKeys rest := by
          simp [mapKeys, hne]
        by_cases hmem : c ∈ mapKeys rest
        · rw [if_pos (hmemiff.mpr hmem)]
          show c0 :: mapKeys (mapPush rest c e) = mapKeys ((c0, l) :: rest)
          rw [ih, if_pos hmem]
          rfl
        · rw [if_neg (fun h => hmem (hmemiff.mp h))]
          show c0 :: mapKeys (mapPush rest c e) =
            mapKeys ((c0, l) :: rest) ++ [c]
          rw [ih, if_neg hmem]
          rfl

theorem mapKeys_nodup_mapPush (m : ElemMap α) (c : Char) (e : α)
    (h : (mapKeys m).Nodup) : (mapKeys (mapPush m c e)).Nodup := by
  rw [mapKeys_mapPush]
  by_cases hmem : c ∈ mapKeys m
  · rwa [if_pos hmem]
  · rw [if_neg hmem]
    simp [List.nodup_append, h, hmem]

theorem lookupList_mapShift (m : ElemMap α) (c c' : Char) :
    lookupList (mapShift m c) c' =
      if c = c' then (lookupList m c').tail else lookupList m c' := by
  induction m with
  | nil => by_cases h : c = c' <;> simp [mapShift, lookupList_nil, h]
  | cons p rest ih =>
      obtain ⟨c0, l⟩ := p
      by_cases h0 : c0 = c
      · subst h0
        rw [show mapShift ((c0, l) :: rest) c0 = (c0, l.tail) :: rest from
          by simp [mapShift]]
        by_cases h1 : c0 = c'
        · subst h1
          simp [lookupList_cons]
        · simp [lookupList_cons, h1]
      · rw [show mapShift ((c0, l) :: rest) c = (c0, l) :: mapShift rest c from
          by simp [mapShift, h0]]
        by_cases h1 : c0 = c'
        · subst h1
          have hcc' : ¬ c = c0 := fun h => h0 h.symm
          simp [lookupList_cons, hcc']
        · simp [lookupList_cons, h1, ih]

theorem mapKeys_mapShift (m : ElemMap α) (c : Char) :
    mapKeys (mapShift m c) = mapKeys m := by
  induction m with
  | nil => rfl
  | cons p rest ih =>
      obtain ⟨c0, l⟩ := p
      by_cases h0 : c0 = c
      · simp [mapShift, mapKeys, h0]
      · simp only [mapShift, if_neg h0, mapKeys, List.map_cons]
        simpa [mapKeys] using ih

/-- Invariant: every queue of the map holds only elements displaying its
key character. -/
def MapCharInv (charOf : α → Char) (m : ElemMap α) : Prop :=
  ∀ p ∈ m, ∀ e ∈ p.2, charOf e = p.1

theorem mapCharInv_nil (charOf : α → Char) :
    MapCharInv charOf ([] : ElemMap α) := by
  intro p hp
  simp at hp

theorem mapCharInv_mapPush (charOf : α → Char) (m : ElemMap α) (c : Char)
    (e : α) (hinv : MapCharInv charOf m) (he : charOf e = c) :
    MapCharInv charOf (mapPush m c e) := by
  induction m with
  | nil =>
      intro p hp e' he'
      simp [mapPush] at hp
      subst hp
      simp at he'
      exact he' ▸ he
  | cons q rest ih =>
      obtain ⟨c0, l⟩ := q
      by_cases h0 : c0 = c
      · subst h0
        rw [show mapPush ((c0, l) :: rest) c0 e = (c0, l ++ [e]) :: rest from
          by simp [mapPush]]
        intro p hp e' he'
        rcases List.mem_cons.mp hp with rfl | hp'
        · rcases List.mem_append.mp he' with h | h
          · exact hinv (c0, l) (List.mem_cons_self _ _) e' h
          · simp at h
            exact h ▸ he
        · exact hinv p (List.mem_cons_of_mem _ hp') e' he'
      · rw [show mapPush ((c0, l) :: rest) c e =
          (c0, l) :: mapPush rest c e from by simp [mapPush, h0]]
        intro p hp e' he'
        rcases List.mem_cons.mp hp with rfl | hp'
        · exact hinv (c0, l) (List.mem_cons_self _ _) e' he'
        · exact ih (fun q hq => hinv q (List.mem_cons_of_mem _ hq)) p hp' e' he'

theorem mapCharInv_mapShift (charOf : α → Char) (m : ElemMap α) (c : Char)
    (hinv : MapCharInv charOf m) : MapCharInv charOf (mapShift m c) := by
  induction m with
  | nil => exact hinv
  | cons q rest ih =>
      obtain ⟨c0, l⟩ := q
      by_cases h0 : c0 = c
      · subst h0
        rw [show mapShift ((c0, l) :: rest) c0 = (c0, l.tail) :: rest from
          by simp [mapShift]]
        intro p hp e' he'
        rcases List.mem_cons.mp hp with rfl | hp'
        · exact hinv (c0, l) (List.mem_cons_self _ _) e'
            (List.mem_of_mem_tail he')
        · exact hinv p (List.mem_cons_of_mem _ hp') e' he'
      · rw [show mapShift ((c0, l) :: rest) c = (c0, l) :: mapShift rest c from
          by simp [mapShift, h0]]
        intro p hp e' he'
        rcases List.mem_cons.mp hp with rfl | hp'
        · exact hinv (c0, l) (List.mem_cons_self _ _) e' he'
        · exact ih (fun q hq => hinv q (List.mem_cons_of_mem _ hq)) p hp' e' he'

theorem lookupList_buildOldMap_go (pairs : List (Char × α)) :
    ∀ (m : ElemMap α) (c : Char),
    lookupList (pairs.foldl (fun m p => mapPush m p.1 p.2) m) c =
      lookupList m c ++ (pairs.filter (fun p => p.1 == c)).map Prod.snd := by
  induction pairs with
  | nil => intro m c; simp
  | cons q rest ih =>
      intro m c
      obtain ⟨c0, e⟩ := q
      rw [List.foldl_cons, ih, lookupList_mapPush]
      by_cases h : c0 = c
      · subst h
        simp
      · simp [h, List.filter_cons]

/-- The queue for `c` in the freshly built map holds exactly the old
elements displaying `c`, in old-index order. -/
theorem lookupList_buildOldMap (oldChars : List Char) (oldElements : List α)
    (c : Char) :
    lookupList (buildOldMap (oldChars.zip oldElements)) c =
      occElems oldChars oldElements c := by
  rw [buildOldMap, lookupList_buildOldMap_go, lookupList_nil, List.nil_append]
  rfl

theorem mapKeys_nodup_buildOldMap_go (pairs : List (Char × α)) :
    ∀ (m : ElemMap α), (mapKeys m).Nodup →
    (mapKeys (pairs.foldl (fun m p => mapPush m p.1 p.2) m)).Nodup := by
  induction pairs with
  | nil => intro m h; exact h
  | cons q rest ih =>
      intro m h
      rw [List.foldl_cons]
      exact ih _ (mapKeys_nodup_mapPush m q.1 q.2 h)

theorem mapKeys_nodup_buildOldMap (pairs : List (Char × α)) :
    (mapKeys (buildOldMap pairs)).Nodup :=
  mapKeys_nodup_buildOldMap_go pairs [] (by simp [mapKeys])

theorem mapCharInv_buildOldMap_go (charOf : α → Char)
    (pairs : List (Char × α)) :
    ∀ (m : ElemMap α), MapCharInv charOf m →
    (∀ p ∈ pairs, charOf p.2 = p.1) →
    MapCharInv charOf (pairs.foldl (fun m p => mapPush m p.1 p.2) m) := by
  induction pairs with
  | nil => intro m h _; exact h
  | cons q rest ih =>
      intro m h hall
      rw [List.foldl_cons]
      exact ih _
        (mapCharInv_mapPush charOf m q.1 q.2 h
          (hall q (List.mem_cons_self _ _)))
        (fun p hp => hall p (List.mem_cons_of_mem _ hp))

theorem mapCharInv_buildOldMap (charOf : α → Char) (pairs : List (Char × α))
    (hall : ∀ p ∈ pairs, charOf p.2 = p.1) :
    MapCharInv charOf (buildOldMap pairs) :=
  mapCharInv_buildOldMap_go charOf pairs [] (mapCharInv_nil charOf) hall

/-! ## Characterising the rebuilt child sequence -/

theorem mapGet_of_lookupList_cons (m : ElemMap α) (c : Char) (e : α)
    (t : List α) (h : lookupList m c = e :: t) :
    mapGet m c = some (e :: t) := by
  cases hget : mapGet m c with
  | none =>
      rw [lookupList, hget] at h
      simp at h
  | some l =>
      rw [lookupList, hget] at h
      simpa using h

theorem mem_of_mapGet (m : ElemMap α) (c : Char) (l : List α)
    (h : mapGet m c = some l) : ∃ p ∈ m, p.1 = c ∧ p.2 = l := by
  rw [mapGet] at h
  rcases Option.map_eq_some'.mp h with ⟨p, hfind, hsnd⟩
  refine ⟨p, List.mem_of_find?_eq_some hfind, ?_, hsnd⟩
  have := List.find?_some hfind
  simpa using this

theorem buildNew_cons_reuse (m : ElemMap α) (c : Char) (cs : List Char)
    (j : Nat) (e : α) (t : List α) (h : mapGet m c = some (e :: t)) :
    buildNew m (c :: cs) j =
      (NewElem.reused e :: (buildNew (mapShift m c) cs (j + 1)).1,
        (buildNew (mapShift m c) cs (j + 1)).2.1,
        (buildNew (mapShift m c) cs (j + 1)).2.2) := by
  conv_lhs => unfold buildNew
  rw [h]

theorem buildNew_cons_fresh (m : ElemMap α) (c : Char) (cs : List Char)
    (j : Nat) (h : lookupList m c = []) :
    buildNew m (c :: cs) j =
      (NewElem.fresh j c :: (buildNew m cs (j + 1)).1,
        NewElem.fresh j c :: (buildNew m cs (j + 1)).2.1,
        (buildNew m cs (j + 1)).2.2) := by
  conv_lhs => unfold buildNew
  cases hget : mapGet m c with
  | none => rfl
  | some l =>
      cases l with
      | nil => rfl
      | cons e t =>
          rw [lookupList, hget] at h
          simp at h

theorem getElem?_tail {β : Type} (l : List β) (n : Nat) :
    l.tail[n]? = l[n + 1]? := by
  cases l <;> simp

/-- The element placed at relative position `k` of the rebuild, given the
remaining map `m` and the pending new characters: the `count`-th leftover
occurrence of the character if the queue still holds one, else a fresh
element at absolute new index `j + k`. -/
def reuseSpec (m : ElemMap α) (newChars : List Char) (j k : Nat) :
    NewElem α :=
  match (lookupList m (newChars.getD k default))[(newChars.take k).count
      (newChars.getD k default)]? with
  | some e => NewElem.reused e
  | none => NewElem.fresh (j + k) (newChars.getD k default)

theorem reuseSpec_zero (m : ElemMap α) (c : Char) (cs : List Char)
    (j : Nat) :
    reuseSpec m (c :: cs) j 0 =
      match (lookupList m c)[0]? with
      | some e => NewElem.reused e
      | none => NewElem.fresh j c := by
  unfold reuseSpec
  simp

theorem reuseSpec_succ_shift (m : ElemMap α) (c : Char) (cs : List Char)
    (j k : Nat) :
    reuseSpec m (c :: cs) j (k + 1) = reuseSpec (mapShift m c) cs (j + 1) k := by
  unfold reuseSpec
  simp only [List.getD_cons_succ, List.take_succ_cons]
  have hidx : j + (k + 1) = (j + 1) + k := by omega
  by_cases h : c = cs.getD k default
  · rw [lookupList_mapShift, if_pos h, ← h, getElem?_tail]
    have hcount : (c :: cs.take k).count c = (cs.take k).count c + 1 := by
      simp [List.count_cons]
    rw [hcount, hidx]
  · rw [lookupList_mapShift, if_neg h]
    have h1 : ¬ c = cs[k]?.getD 'A' := by simpa using h
    have h2 : ¬ cs[k]?.getD 'A' = c := fun hh => h1 hh.symm
    have hcount : (c :: cs.take k).count (cs.getD k default) =
        (cs.take k).count (cs.getD k default) := by
      simp [List.count_cons, h1, h2]
    rw [hcount, hidx]

theorem reuseSpec_succ_keep (m : ElemMap α) (c : Char) (cs : List Char)
    (j k : Nat) (hnil : lookupList m c = []) :
    reuseSpec m (c :: cs) j (k + 1) = reuseSpec m cs (j + 1) k := by
  unfold reuseSpec
  simp only [List.getD_cons_succ, List.take_succ_cons]
  have hidx : j + (k + 1) = (j + 1) + k := by omega
  by_cases h : c = cs.getD k default
  · rw [← h, hnil]
    simp [hidx]
  · have h1 : ¬ c = cs[k]?.getD 'A' := by simpa using h
    have h2 : ¬ cs[k]?.getD 'A' = c := fun hh => h1 hh.symm
    have hcount : (c :: cs.take k).count (cs.getD k default) =
        (cs.take k).count (cs.getD k default) := by
      simp [List.count_cons, h1, h2]
    rw [hcount, hidx]

/-- The rebuilt child sequence, position by position: position `k` holds
the `(newChars.take k).count c`-th remaining occurrence of
`c = newChars[k]` when the queue still has one, and a fresh element
otherwise. -/
theorem buildNew_children (newChars : List Char) :
    ∀ (m : ElemMap α) (j : Nat),
    (buildNew m newChars j).1 =
      (List.range newChars.length).map (reuseSpec m newChars j) := by
  induction newChars with
  | nil =>
      intro m j
      simp [buildNew]
  | cons c cs ih =>
      intro m j
      rw [show List.range (c :: cs).length =
          0 :: (List.range cs.length).map Nat.succ from by
        simp [List.range_succ_eq_map]]
      rw [List.map_cons, List.map_map]
      cases hlk : lookupList m c with
      | cons e t =>
          rw [buildNew_cons_reuse m c cs j e t
            (mapGet_of_lookupList_cons m c e t hlk)]
          have hhead : reuseSpec m (c :: cs) j 0 = NewElem.reused e := by
            rw [reuseSpec_zero, hlk]
            simp
          rw [hhead]
          show NewElem.reused e :: (buildNew (mapShift m c) cs (j + 1)).1 = _
          rw [ih (mapShift m c) (j + 1)]
          congr 1
          apply List.map_congr_left
          intro k _
          show reuseSpec (mapShift m c) cs (j + 1) k =
            reuseSpec m (c :: cs) j (k + 1)
          exact (reuseSpec_succ_shift m c cs j k).symm
      | nil =>
          rw [buildNew_cons_fresh m c cs j hlk]
          have hhead : reuseSpec m (c :: cs) j 0 = NewElem.fresh j c := by
            rw [reuseSpec_zero, hlk]
            rfl
          rw [hhead]
          show NewElem.fresh j c :: (buildNew m cs (j + 1)).1 = _
          rw [ih m (j + 1)]
          congr 1
          apply List.map_congr_left
          intro k _
          show reuseSpec m cs (j + 1) k = reuseSpec m (c :: cs) j (k + 1)
          exact (reuseSpec_succ_keep m c cs j k hlk).symm

/-- The `elementsToAdd` list is exactly the fresh part of the rebuilt sequence, in
order. -/
theorem buildNew_toAdd (newChars : List Char) :
    ∀ (m : ElemMap α) (j : Nat),
    (buildNew m newChars j).2.1 =
      ((buildNew m newChars j).1).filter NewElem.isFresh := by
  induction newChars with
  | nil =>
      intro m j
      simp [buildNew]
  | cons c cs ih =>
      intro m j
      cases hlk : lookupList m c with
      | cons e t =>
          rw [buildNew_cons_reuse m c cs j e t
            (mapGet_of_lookupList_cons m c e t hlk)]
          simp only [List.filter_cons]
          rw [show NewElem.isFresh (NewElem.reused e : NewElem α) = false from rfl]
          simpa using ih (mapShift m c) (j + 1)
      | nil =>
          rw [buildNew_cons_fresh m c cs j hlk]
          simp only [List.filter_cons]
          rw [show NewElem.isFresh (NewElem.fresh j c : NewElem α) = true from rfl]
          simpa using ih m (j + 1)

/-- The map remaining after the rebuild: each queue has lost its first
`newChars.count c` elements (all of them when fewer were available). -/
theorem buildNew_finalMap (newChars : List Char) :
    ∀ (m : ElemMap α) (j : Nat) (c : Char),
    lookupList ((buildNew m newChars j).2.2) c =
      (lookupList m c).drop (newChars.count c) := by
  induction newChars with
  | nil =>
      intro m j c
      simp [buildNew]
  | cons c0 cs ih =>
      intro m j c
      cases hlk : lookupList m c0 with
      | cons e t =>
          rw [buildNew_cons_reuse m c0 cs j e t
            (mapGet_of_lookupList_cons m c0 e t hlk)]
          show lookupList ((buildNew (mapShift m c0) cs (j + 1)).2.2) c = _
          rw [ih (mapShift m c0) (j + 1) c, lookupList_mapShift]
          by_cases h : c0 = c
          · subst h
            rw [if_pos rfl, hlk]
            have hcount : (c0 :: cs).count c0 = cs.count c0 + 1 := by
              simp [List.count_cons]
            rw [hcount]
            show t.drop (cs.count c0) = (e :: t).drop (cs.count c0 + 1)
            rw [List.drop_succ_cons]
          · rw [if_neg h]
            have h1 : ¬ c = c0 := fun hh => h hh.symm
            have hcount : (c0 :: cs).count c = cs.count c := by
              simp [List.count_cons, h, h1]
            rw [hcount]
      | nil =>
          rw [buildNew_cons_fresh m c0 cs j hlk]
          show lookupList ((buildNew m cs (j + 1)).2.2) c = _
          rw [ih m (j + 1) c]
          by_cases h : c0 = c
          · subst h
            rw [hlk]
            simp
          · have h1 : ¬ c = c0 := fun hh => h hh.symm
            have hcount : (c0 :: cs).count c = cs.count c := by
              simp [List.count_cons, h, h1]
            rw [hcount]

theorem buildNew_finalMap_keys (newChars : List Char) :
    ∀ (m : ElemMap α) (j : Nat),
    mapKeys ((buildNew m newChars j).2.2) = mapKeys m := by
  induction newChars with
  | nil =>
      intro m j
      simp [buildNew]
  | cons c0 cs ih =>
      intro m j
      cases hlk : lookupList m c0 with
      | cons e t =>
          rw [buildNew_cons_reuse m c0 cs j e t
            (mapGet_of_lookupList_cons m c0 e t hlk)]
          show mapKeys ((buildNew (mapShift m c0) cs (j + 1)).2.2) = _
          rw [ih (mapShift m c0) (j + 1), mapKeys_mapShift]
      | nil =>
          rw [buildNew_cons_fresh m c0 cs j hlk]
          show mapKeys ((buildNew m cs (j + 1)).2.2) = _
          rw [ih m (j + 1)]

theorem mapCharInv_buildNew (charOf : α → Char) (newChars : List Char) :
    ∀ (m : ElemMap α) (j : Nat), MapCharInv charOf m →
    MapCharInv charOf ((buildNew m newChars j).2.2) := by
  induction newChars with
  | nil =>
      intro m j h
      simpa [buildNew] using h
  | cons c0 cs ih =>
      intro m j h
      cases hlk : lookupList m c0 with
      | cons e t =>
          rw [buildNew_cons_reuse m c0 cs j e t
            (mapGet_of_lookupList_cons m c0 e t hlk)]
          exact ih (mapShift m c0) (j + 1) (mapCharInv_mapShift charOf m c0 h)
      | nil =>
          rw [buildNew_cons_fresh m c0 cs j hlk]
          exact ih m (j + 1) h

theorem leftoverElems_not_mem (charOf : α → Char) (m : ElemMap α)
    (hinv : MapCharInv charOf m) (c : Char) (hc : c ∉ mapKeys m) :
    (leftoverElems m).filter (fun e => charOf e == c) = [] ∧
      lookupList m c = [] := by
  induction m with
  | nil => exact ⟨rfl, rfl⟩
  | cons p rest ih =>
      obtain ⟨c0, l⟩ := p
      have hne : c0 ≠ c := by
        intro h
        exact hc (by simp [mapKeys, h])
      have hcrest : c ∉ mapKeys rest := by
        intro h
        exact hc (by simp [mapKeys] at h ⊢; exact Or.inr h)
      obtain ⟨ih1, ih2⟩ := ih
        (fun q hq => hinv q (List.mem_cons_of_mem _ hq)) hcrest
      constructor
      · show (l ++ leftoverElems rest).filter (fun e => charOf e == c) = []
        rw [List.filter_append, ih1, List.append_nil]
        apply List.filter_eq_nil_iff.mpr
        intro e he
        have := hinv (c0, l) (List.mem_cons_self _ _) e he
        simp [this, hne]
      · rw [lookupList_cons, if_neg hne]
        exact ih2

/-- Filtering the leftover elements (`elementsToRemove`) by displayed
character recovers exactly the queue still stored for that character. -/
theorem leftoverElems_filter (charOf : α → Char) (m : ElemMap α)
    (hinv : MapCharInv charOf m) (hnodup : (mapKeys m).Nodup) (c : Char) :
    (leftoverElems m).filter (fun e => charOf e == c) = lookupList m c := by
  induction m with
  | nil => rfl
  | cons p rest ih =>
      obtain ⟨c0, l⟩ := p
      have hrest_inv : MapCharInv charOf rest :=
        fun q hq => hinv q (List.mem_cons_of_mem _ hq)
      have hl : ∀ e ∈ l, charOf e = c0 :=
        hinv (c0, l) (List.mem_cons_self _ _)
      have hsplit : (∀ (x : List α), (c0, x) ∉ rest) ∧
          (List.map Prod.fst rest).Nodup := by
        simpa [mapKeys] using hnodup
      have hrest_nodup : (mapKeys rest).Nodup := hsplit.2
      have hc0rest : c0 ∉ mapKeys rest := by
        intro hmem
        rcases List.mem_map.mp hmem with ⟨p, hp, hpc⟩
        obtain ⟨p1, p2⟩ := p
        simp only at hpc
        subst hpc
        exact hsplit.1 p2 hp
      show (l ++ leftoverElems rest).filter (fun e => charOf e == c) = _
      rw [List.filter_append, lookupList_cons]
      by_cases h : c0 = c
      · subst h
        rw [if_pos rfl]
        have h1 : l.filter (fun e => charOf e == c0) = l := by
          apply List.filter_eq_self.mpr
          intro e he
          simp [hl e he]
        have h2 : (leftoverElems rest).filter (fun e => charOf e == c0) = [] :=
          (leftoverElems_not_mem charOf rest hrest_inv c0 hc0rest).1
        rw [h1, h2, List.append_nil]
      · rw [if_neg h]
        have h1 : l.filter (fun e => charOf e == c) = [] := by
          apply List.filter_eq_nil_iff.mpr
          intro e he
          simp [hl e he, h]
        rw [h1, List.nil_append]
        exact ih hrest_inv hrest_nodup

/-- Every position of the rebuilt sequence displays exactly the new
character at that position. -/
theorem buildNew_displayed (charOf : α → Char) (newChars : List Char) :
    ∀ (m : ElemMap α) (j : Nat), MapCharInv charOf m →
    ((buildNew m newChars j).1).map (displayedChar charOf) = newChars := by
  induction newChars with
  | nil =>
      intro m j _
      simp [buildNew]
  | cons c0 cs ih =>
      intro m j hinv
      cases hlk : lookupList m c0 with
      | cons e t =>
          have hget := mapGet_of_lookupList_cons m c0 e t hlk
          rw [buildNew_cons_reuse m c0 cs j e t hget]
          obtain ⟨p, hp, hpc, hpl⟩ := mem_of_mapGet m c0 (e :: t) hget
          have hchar : charOf e = c0 := by
            have := hinv p hp e (by rw [hpl]; exact List.mem_cons_self _ _)
            rw [this, hpc]
          show displayedChar charOf (NewElem.reused e) ::
            ((buildNew (mapShift m c0) cs (j + 1)).1).map (displayedChar charOf) = _
          rw [show displayedChar charOf (NewElem.reused e) = charOf e from rfl,
            hchar, ih (mapShift m c0) (j + 1) (mapCharInv_mapShift charOf m c0 hinv)]
      | nil =>
          rw [buildNew_cons_fresh m c0 cs j hlk]
          show displayedChar charOf (NewElem.fresh j c0) ::
            ((buildNew m cs (j + 1)).1).map (displayedChar charOf) = _
          rw [show displayedChar charOf (NewElem.fresh j c0 : NewElem α) = c0 from rfl,
            ih m (j + 1) hinv]

theorem map_charOf_of_zip (charOf : α → Char) :
    ∀ (oldChars : List Char) (oldElements : List α),
    oldElements.length = oldChars.length →
    (∀ p ∈ oldChars.zip oldElements, charOf p.2 = p.1) →
    oldElements.map charOf = oldChars
  | [], [], _, _ => rfl
  | [], _ :: _, h, _ => by simp at h
  | _ :: _, [], h, _ => by simp at h
  | c :: cs, e :: es, h, hp => by
      simp only [List.map_cons]
      rw [hp (c, e) (by simp [List.zip_cons_cons]),
        map_charOf_of_zip charOf cs es (by simpa using h)
          (fun q hq => hp q (by simp [List.zip_cons_cons, hq]))]

theorem containerAt_append (init : List (NewElem α))
    (tl1 tl2 : List (TimelineEntry α)) (t : ℚ) :
    containerAt init (tl1 ++ tl2) t =
      containerAt (containerAt init tl1 t) tl2 t := by
  simp [containerAt, List.foldl_append]

theorem containerAt_ite_remove (init : List (NewElem α)) (c : Prop)
    [Decidable c] (l : List α) (p t : ℚ) :
    containerAt init (if c then [TimelineEntry.tweenRemove l p] else []) t =
      init := by
  by_cases h : c <;> simp [containerAt, h]

theorem containerAt_ite_add (init : List (NewElem α)) (c : Prop)
    [Decidable c] (l : List (NewElem α)) (p t : ℚ) :
    containerAt init (if c then [TimelineEntry.tweenAdd l p] else []) t =
      init := by
  by_cases h : c <;> simp [containerAt, h]

theorem containerAt_rebuild (init ch : List (NewElem α)) (p t : ℚ) :
    containerAt init [TimelineEntry.rebuild ch p] t =
      if p ≤ t then ch else init := by
  simp [containerAt]

/-- C6: every invocation of the DOM-rebuild transition with a non-empty
old element list performs `gsap.killTweensOf(oldElements)` as the very
first step of its execution trace — before any removal tween, container
rebuild, or addition tween, all of which are timeline entries that run
only after the call has returned. -/
theorem transition_kills_tweens_first (strategy : Strategy)
    (oldText newText : String) (oldElements : List α)
    (opts : TransitionOpts) (h : oldElements ≠ []) :
    (executionTrace
        (transition strategy oldText newText oldElements opts)).head? =
      some (Sum.inl (SyncEffect.killTweens oldElements)) := by
  have hlen : oldElements.length > 0 := List.length_pos.mpr h
  cases strategy <;>
    simp [transition, executionTrace, hlen]

theorem transition_kills_tweens_first_witness :
    (['x'] : List Char) ≠ [] ∧
    (executionTrace
        (transition Strategy.smart "x" "y" (['x'] : List Char)
          defaultOpts)).head? =
      some (Sum.inl (SyncEffect.killTweens ['x'])) :=
  ⟨by decide,
    transition_kills_tweens_first Strategy.smart "x" "y" ['x'] defaultOpts
      (by decide)⟩

/-- C3 counterexample: immediately after `transitionTo` returns — at
timeline playhead `0`, before any timeline entry has run — the container
of the smart transition from `"Hi"` to `"Hey"` (default options) still
renders the old text `"Hi"`, not `"Hey"`: the rebuild is scheduled at
timeline position `removeDuration * 0.3`, not performed synchronously. -/
theorem transition_patch_not_synchronous :
    (containerAt ((['H', 'i'] : List Char).map NewElem.reused)
        (transition Strategy.smart "Hi" "Hey" (['H', 'i'] : List Char)
          defaultOpts).2 0).map (displayedChar id) = "Hi".toList ∧
    "Hi".toList ≠ "Hey".toList := by
  refine ⟨?_, by decide⟩
  have htl : (transition Strategy.smart "Hi" "Hey" (['H', 'i'] : List Char)
      defaultOpts).2 =
      [TimelineEntry.tweenRemove ['i'] 0,
        TimelineEntry.rebuild
          [NewElem.reused 'H', NewElem.fresh 1 'e', NewElem.fresh 2 'y']
          (defaultOpts.removeDuration * (3/10)),
        TimelineEntry.tweenAdd [NewElem.fresh 1 'e', NewElem.fresh 2 'y']
          (defaultOpts.removeDuration * (1/2))] := rfl
  rw [htl]
  have hsplit : [TimelineEntry.tweenRemove (['i'] : List Char) 0,
      TimelineEntry.rebuild
        [NewElem.reused 'H', NewElem.fresh 1 'e', NewElem.fresh 2 'y']
        (defaultOpts.removeDuration * (3/10)),
      TimelineEntry.tweenAdd [NewElem.fresh 1 'e', NewElem.fresh 2 'y']
        (defaultOpts.removeDuration * (1/2))] =
      (if True then [TimelineEntry.tweenRemove (['i'] : List Char) 0] else [])
      ++ [TimelineEntry.rebuild
            [NewElem.reused 'H', NewElem.fresh 1 'e', NewElem.fresh 2 'y']
            (defaultOpts.removeDuration * (3/10))]
      ++ (if True then
            [TimelineEntry.tweenAdd [NewElem.fresh 1 'e', NewElem.fresh 2 'y']
              (defaultOpts.removeDuration * (1/2))]
          else []) := by simp
  rw [hsplit, containerAt_append, containerAt_append, containerAt_ite_remove,
    containerAt_rebuild, containerAt_ite_add]
  have hpos : ¬ (defaultOpts.removeDuration * (3/10) ≤ (0 : ℚ)) := by
    norm_num [defaultOpts]
  rw [if_neg hpos]
  decide

/-- C3 (amended): the DOM patch of the smart transition is a single
atomic replacement, but it is scheduled on the timeline at position
`removeDuration * 0.3` rather than performed synchronously: at every
playhead time `t` the rendered text is exactly `oldText` before that
position and exactly `newText` from it on — never a partial or
interleaved mix, but also not `newText` immediately after `transitionTo`
returns. -/
theorem transition_patch_atomic (oldText newText : String)
    (oldElements : List α) (charOf : α → Char)
    (hlen : oldElements.length = oldText.length)
    (hchar : ∀ p ∈ oldText.toList.zip oldElements, charOf p.2 = p.1)
    (opts : TransitionOpts) (t : ℚ) :
    (containerAt (oldElements.map NewElem.reused)
        (transition Strategy.smart oldText newText oldElements opts).2
        t).map (displayedChar charOf) =
      if t < opts.removeDuration * (3/10) then oldText.toList
      else newText.toList := by
  have htl : (transition Strategy.smart oldText newText oldElements opts).2 =
      (if (leftoverElems (buildNew
            (buildOldMap (oldText.toList.zip oldElements))
            newText.toList 0).2.2).length > 0 then
          [TimelineEntry.tweenRemove
            (leftoverElems (buildNew
              (buildOldMap (oldText.toList.zip oldElements))
              newText.toList 0).2.2) 0]
        else [])
      ++ [TimelineEntry.rebuild
            (buildNew (buildOldMap (oldText.toList.zip oldElements))
              newText.toList 0).1
            (opts.removeDuration * (3/10))]
      ++ (if (buildNew (buildOldMap (oldText.toList.zip oldElements))
            newText.toList 0).2.1.length > 0 then
          [TimelineEntry.tweenAdd
            (buildNew (buildOldMap (oldText.toList.zip oldElements))
              newText.toList 0).2.1
            (opts.removeDuration * (1/2))]
        else []) := rfl
  rw [htl, containerAt_append, containerAt_append, containerAt_ite_remove,
    containerAt_rebuild, containerAt_ite_add]
  have hinv : MapCharInv charOf
      (buildOldMap (oldText.toList.zip oldElements)) :=
    mapCharInv_buildOldMap charOf _ hchar
  have hnew : ((buildNew (buildOldMap (oldText.toList.zip oldElements))
      newText.toList 0).1).map (displayedChar charOf) = newText.toList :=
    buildNew_displayed charOf newText.toList _ 0 hinv
  have hold : (oldElements.map NewElem.reused).map (displayedChar charOf) =
      oldText.toList := by
    rw [List.map_map]
    exact map_charOf_of_zip charOf oldText.toList oldElements
      (by simpa using hlen) hchar
  by_cases hle : opts.removeDuration * (3/10) ≤ t
  · rw [if_pos hle, if_neg (not_lt.mpr hle)]
    exact hnew
  · rw [if_neg hle, if_pos (lt_of_not_ge hle)]
    exact hold

theorem transition_patch_atomic_witness :
    ((['H', 'i'] : List Char).length = ("Hi" : String).length ∧
      ∀ p ∈ ("Hi" : String).toList.zip (['H', 'i'] : List Char),
        id p.2 = p.1) ∧
    (containerAt ((['H', 'i'] : List Char).map NewElem.reused)
        (transition Strategy.smart "Hi" "Hey" (['H', 'i'] : List Char)
          defaultOpts).2 1).map (displayedChar id) =
      (if (1 : ℚ) < defaultOpts.removeDuration * (3/10) then
        ("Hi" : String).toList
      else ("Hey" : String).toList) :=
  ⟨⟨by decide, by decide⟩,
    transition_patch_atomic "Hi" "Hey" ['H', 'i'] id (by decide) (by decide)
      defaultOpts 1⟩

/-- The element that FIFO reuse dictates for new position `k` holding
character `c`: the `n`-th available old occurrence when it exists, a
fresh element otherwise. -/
def reuseAt (avail : List α) (n k : Nat) (c : Char) : NewElem α :=
  match avail[n]? with
  | some e => NewElem.reused e
  | none => NewElem.fresh k c

/-- C10: in the DOM-rebuild smart transition, reuse is decided purely by
character value in first-in-first-out order, not by positional distance:
position `k` of the rebuilt sequence receives the `n`-th old element
displaying `c = newText[k]` (in increasing old-index order), where `n`
counts the earlier occurrences of `c` in the new text, and a fresh
element exactly when the old occurrences are exhausted; the removed
elements of each character are exactly the old occurrences beyond the
new occurrence count; `elementsToAdd` is exactly the fresh part of the
sequence. -/
theorem smartTransition_fifo_reuse (oldText newText : String)
    (oldElements : List α) (charOf : α → Char)
    (_hlen : oldElements.length = oldText.length)
    (hchar : ∀ p ∈ oldText.toList.zip oldElements, charOf p.2 = p.1) :
    (∀ k, k < newText.length →
      (buildNew (buildOldMap (oldText.toList.zip oldElements))
          newText.toList 0).1[k]? =
        some (reuseAt
          (occElems oldText.toList oldElements (newText.toList.getD k default))
          ((newText.toList.take k).count (newText.toList.getD k default))
          k (newText.toList.getD k default))) ∧
    (∀ c, (leftoverElems (buildNew
        (buildOldMap (oldText.toList.zip oldElements))
        newText.toList 0).2.2).filter (fun e => charOf e == c) =
      (occElems oldText.toList oldElements c).drop
        (newText.toList.count c)) ∧
    ((buildNew (buildOldMap (oldText.toList.zip oldElements))
        newText.toList 0).2.1 =
      ((buildNew (buildOldMap (oldText.toList.zip oldElements))
        newText.toList 0).1).filter NewElem.isFresh) := by
  refine ⟨fun k hk => ?_, fun c => ?_, ?_⟩
  · have h1 : (buildNew (buildOldMap (oldText.toList.zip oldElements))
        newText.toList 0).1[k]? =
        some (reuseSpec (buildOldMap (oldText.toList.zip oldElements))
          newText.toList 0 k) := by
      have hk' : k < newText.toList.length := hk
      rw [buildNew_children, List.getElem?_map, List.getElem?_range hk']
      rfl
    rw [h1]
    congr 1
    unfold reuseSpec reuseAt
    rw [lookupList_buildOldMap]
    cases hocc : (occElems oldText.toList oldElements
        (newText.toList.getD k default))[(newText.toList.take k).count
          (newText.toList.getD k default)]? with
    | some e => rfl
    | none => rw [Nat.zero_add]
  · have hinv0 : MapCharInv charOf
        (buildOldMap (oldText.toList.zip oldElements)) :=
      mapCharInv_buildOldMap charOf _ hchar
    have hinvF := mapCharInv_buildNew charOf newText.toList
      (buildOldMap (oldText.toList.zip oldElements)) 0 hinv0
    have hnodup : (mapKeys ((buildNew
        (buildOldMap (oldText.toList.zip oldElements))
        newText.toList 0).2.2)).Nodup := by
      rw [buildNew_finalMap_keys]
      exact mapKeys_nodup_buildOldMap _
    rw [leftoverElems_filter charOf _ hinvF hnodup, buildNew_finalMap,
      lookupList_buildOldMap]
  · exact buildNew_toAdd newText.toList _ 0

theorem smartTransition_fifo_reuse_witness :
    (([0, 1, 2] : List Nat).length = ("aba" : String).length ∧
      ∀ p ∈ ("aba" : String).toList.zip ([0, 1, 2] : List Nat),
        (fun i => ("aba" : String).toList.getD i default) p.2 = p.1) ∧
    ((∀ k, k < ("aab" : String).length →
      (buildNew (buildOldMap (("aba" : String).toList.zip
          ([0, 1, 2] : List Nat))) ("aab" : String).toList 0).1[k]? =
        some (reuseAt
          (occElems ("aba" : String).toList ([0, 1, 2] : List Nat)
            (("aab" : String).toList.getD k default))
          ((("aab" : String).toList.take k).count
            (("aab" : String).toList.getD k default))
          k (("aab" : String).toList.getD k default))) ∧
    (∀ c, (leftoverElems (buildNew
        (buildOldMap (("aba" : String).toList.zip ([0, 1, 2] : List Nat)))
        ("aab" : String).toList 0).2.2).filter
        (fun e => ("aba" : String).toList.getD e default == c) =
      (occElems ("aba" : String).toList ([0, 1, 2] : List Nat) c).drop
        (("aab" : String).toList.count c)) ∧
    ((buildNew (buildOldMap (("aba" : String).toList.zip
        ([0, 1, 2] : List Nat))) ("aab" : String).toList 0).2.1 =
      ((buildNew (buildOldMap (("aba" : String).toList.zip
        ([0, 1, 2] : List Nat))) ("aab" : String).toList 0).1).filter
        NewElem.isFresh)) :=
  by
  refine ⟨⟨by decide, by decide⟩, ?_⟩
  exact smartTransition_fifo_reuse "aba" "aab" [0, 1, 2]
    (fun i => ("aba" : String).toList.getD i default) (by decide) (by decide)

/-! ## WrapperFactory: character elements and enumeration (`config.ts`
`PATTERNS`, `utils.padNumber`, `WrapperFactory.createCharElement` /
`wrapChars`) -/

/-- Embedding of `PATTERNS.space` (`/\s/`), restricted to the ASCII whitespace and
no-break space relevant to this development (the full JS class also
covers further Unicode space separators, none of which occur here). -/
def spaceChars : List Char :=
  [' ', '\t', '\n', '\r', '\x0b', '\x0c', '\u00A0']

def testSpace (c : Char) : Bool :=
  spaceChars.contains c

/-- Embedding of `PATTERNS.special` (`/[<>?!:;,.$%€£¥…«»|]/`). -/
def specialChars : List Char :=
  ['<', '>', '?', '!', ':', ';', ',', '.', '$', '%', '€', '£', '¥',
    '…', '«', '»', '|']

def testSpecial (c : Char) : Bool :=
  specialChars.contains c

/-- The diacritics and the `-`/`+` signs of `PATTERNS.regular` beyond
`\w`. -/
def regularExtraChars : List Char :=
  "-+äüöÄÜÖßéèêëúùûüóòôöáàâäíìîïÉÈÊËÚÙÛÜÓÒÔÖÁÀÂÄÍÌÎÏçÇñÑ".toList

/-- Embedding of `PATTERNS.regular` (`/[\w\-+äüö...]/`): word characters
(`[A-Za-z0-9_]`), the two signs, and the diacritics list. -/
def testRegular (c : Char) : Bool :=
  (decide ('a' ≤ c ∧ c ≤ 'z') || decide ('A' ≤ c ∧ c ≤ 'Z') ||
    decide ('0' ≤ c ∧ c ≤ '9') || decide (c = '_')) ||
    regularExtraChars.contains c

/-- Embedding of `utils.padNumber`: `String(num).padStart(3, '0')`. -/
def padNumber (num : Nat) : String :=
  let s := toString num
  String.mk (List.replicate (3 - s.length) '0') ++ s

example : padNumber 5 = "005" := by decide
example : padNumber 42 = "042" := by decide
example : padNumber 123 = "123" := by decide
example : padNumber 1000 = "1000" := by decide

/-- Embedding of `config.enumerate`. -/
structure EnumerateConfig where
  chars : Bool
  words : Bool
  includeSpaces : Bool
  includeSpecialChars : Bool
deriving Repr, DecidableEq

/-- Embedding of `config.wrap`. -/
structure WrapFlags where
  chars : Bool
  words : Bool
  spaces : Bool
  specialChars : Bool
deriving Repr, DecidableEq

/-- Embedding of `config.classes`. -/
structure ClassesConfig where
  char : String
  word : String
  space : String
  special : String
  regular : String
deriving Repr, DecidableEq

/-- The part of `CharWrapperConfig` consumed by `createCharElement`. -/
structure CharWrapperConfig where
  wrap : WrapFlags
  enumerate : EnumerateConfig
  classes : ClassesConfig
  tagChar : String
  replaceSpaceWith : String
  accessibilityEnabled : Bool
  ariaHidden : Bool
deriving Repr, DecidableEq

/-- Embedding of `DEFAULT_CONFIG`, restricted to the fields modelled here. -/
def defaultConfig : CharWrapperConfig where
  wrap := { chars := true, words := false, spaces := false, specialChars := false }
  enumerate := { chars := false, words := false, includeSpaces := false, includeSpecialChars := false }
  classes := { char := "char", word := "word", space := "char--space", special := "char--special", regular := "char--regular" }
  tagChar := "span"
  replaceSpaceWith := "\u00A0"
  accessibilityEnabled := true
  ariaHidden := true

/-- Embedding of the private `shouldEnumerateChar` check of `WrapperFactory`. -/
def shouldEnumerateChar (cfg : CharWrapperConfig) (c : Char) : Bool :=
  let isSpace := testSpace c
  let isSpecial := testSpecial c
  if cfg.enumerate.includeSpaces && cfg.enumerate.includeSpecialChars then
    true
  else if isSpace && !cfg.enumerate.includeSpaces then false
  else if isSpecial && !cfg.enumerate.includeSpecialChars then false
  else true

/-- A wrapped character element as produced by `createCharElement`:
`classes` is the class list in push order, `className` the joined
(truthy-filtered) class string. -/
structure CharElement where
  tag : String
  classes : List String
  className : String
  text : String
  ariaHidden : Bool
deriving Repr, DecidableEq, Inhabited

/-- Embedding of `WrapperFactory.createCharElement`, with the mutable `#counters.char`
threaded explicitly: it is incremented exactly when the enumerated class
is pushed. -/
def createCharElement (cfg : CharWrapperConfig) (c : Char)
    (subsetCls : Option String) (counter : Nat) : CharElement × Nat :=
  let enumerated := cfg.enumerate.chars && shouldEnumerateChar cfg c
  let classes : List String :=
    [cfg.classes.char]
    ++ (if enumerated then [cfg.classes.char ++ "-" ++ padNumber counter]
        else [])
    ++ (match subsetCls with
        | some s => if s ≠ "" then [s] else []
        | none => [])
    ++ (if cfg.wrap.spaces && testSpace c then [cfg.classes.space] else [])
    ++ (if cfg.wrap.specialChars && testSpecial c then [cfg.classes.special]
        else [])
    ++ (if testRegular c then [cfg.classes.regular] else [])
  let textContent :=
    if c = ' ' && cfg.replaceSpaceWith ≠ "" then cfg.replaceSpaceWith
    else String.mk [c]
  ({ tag := cfg.tagChar
     classes := classes
     className := String.intercalate " " (classes.filter (fun s => s ≠ ""))
     text := textContent
     ariaHidden := cfg.accessibilityEnabled && cfg.ariaHidden },
    if enumerated then counter + 1 else counter)

/-- Embedding of `WrapperFactory.wrapChars`: wrap each character in order, threading
the enumeration counter. -/
def wrapChars (cfg : CharWrapperConfig) (text : String)
    (subsetCls : Option String) (counter : Nat) :
    List CharElement × Nat :=
  text.toList.foldl
    (fun acc c =>
      let r := createCharElement cfg c subsetCls acc.2
      (acc.1 ++ [r.1], r.2))
    ([], counter)

/-- A character-list based "ends with" check (kernel-computable form of
`String.endsWith`). -/
def strEndsWith (s suffix : String) : Bool :=
  suffix.toList.isSuffixOf s.toList

/-- C9: wrapping `"abc"` with character enumeration enabled and the
counter reset to `0` — whatever the `includeSpaces` /
`includeSpecialChars` flags, which are irrelevant for letters — produces
three character elements whose positional classes are zero-padded to
width 3: `char-000`, `char-001`, `char-002`, ending in `-000`, `-001`
and `-002` respectively. -/
theorem enumeration_abc (b1 b2 : Bool) :
    ((wrapChars { defaultConfig with
        enumerate := { chars := true, words := false, includeSpaces := b1, includeSpecialChars := b2 } }
      "abc" none 0).1.map CharElement.classes) =
      [["char", "char-000", "char--regular"],
        ["char", "char-001", "char--regular"],
        ["char", "char-002", "char--regular"]] ∧
    strEndsWith (((wrapChars { defaultConfig with
        enumerate := { chars := true, words := false, includeSpaces := b1, includeSpecialChars := b2 } }
      "abc" none 0).1.getD 0 default).classes.getD 1 "") "-000" = true ∧
    strEndsWith (((wrapChars { defaultConfig with
        enumerate := { chars := true, words := false, includeSpaces := b1, includeSpecialChars := b2 } }
      "abc" none 0).1.getD 1 default).classes.getD 1 "") "-001" = true ∧
    strEndsWith (((wrapChars { defaultConfig with
        enumerate := { chars := true, words := false, includeSpaces := b1, includeSpecialChars := b2 } }
      "abc" none 0).1.getD 2 default).classes.getD 1 "") "-002" = true := by
  cases b1 <;> cases b2 <;> exact ⟨by decide, by decide, by decide, by decide⟩

/-! ## CharWrapper facade guards (`config.ts` concatenation,
`CharWrapper.wrap` / `CharWrapper.transitionTo`) -/

/-- The result of `wrap()`: `{ chars, words, groups }`. -/
structure WrapResultS (α : Type) where
  chars : List α
  words : List α
  groups : List (String × List α)
deriving Repr, DecidableEq

/-- The `CharWrapper` instance state relevant to the guard behaviour:
the `#isWrapped` flag, the current text, the wrapped elements, and
whether `#rootElement` is still set (cleared by `destroy`). -/
structure CharWrapperState (α : Type) where
  isWrapped : Bool
  originalText : String
  wrappedElements : WrapResultS α
  hasRoot : Bool
deriving Repr, DecidableEq

/-- Embedding of `CharWrapper.wrap`: when already wrapped, log a warning and return
the existing wrapped elements with the state untouched; otherwise run the
processor and grouper (external collaborators `DOMProcessor` /
`CharacterGrouper`, passed as functions) and store the result. -/
def wrap (processElement : String → List α × List α)
    (groupChars : List α → String → List (String × List α))
    (st : CharWrapperState α) : WrapResultS α × CharWrapperState α :=
  if st.isWrapped then (st.wrappedElements, st)
  else
    let r := processElement st.originalText
    let groups := groupChars r.1 st.originalText
    let wr : WrapResultS α := ⟨r.1, r.2, groups⟩
    (wr, { st with isWrapped := true, wrappedElements := wr })

/-- Embedding of `CharWrapper.transitionTo`: when not wrapped (or the root element is
gone), log an error and return `null` — no transition is built, no
effect is issued, and the state is unchanged.  Otherwise run
`TextTransition.transition` on the current state; the synchronous return
leaves the state unchanged too, because `#originalText` and the element
list are only updated in the `onComplete` callback after the animation
finishes. -/
def transitionTo (st : CharWrapperState α) (newText : String)
    (strategy : Strategy) (opts : TransitionOpts) :
    Option (List (SyncEffect α) × List (TimelineEntry α)) ×
      CharWrapperState α :=
  if !st.isWrapped then (none, st)
  else if !st.hasRoot then (none, st)
  else
    (some (transition strategy st.originalText newText
      st.wrappedElements.chars opts), st)

/-- C8: calling `wrap()` while already wrapped returns the existing
wrapped-element state with the instance unchanged (and without
throwing, the embedding being total); calling `transitionTo` while not
wrapped returns `null` without producing any effect or timeline and
without changing the instance state. -/
theorem misuse_guards (processElement : String → List α × List α)
    (groupChars : List α → String → List (String × List α))
    (st : CharWrapperState α) (newText : String) (strategy : Strategy)
    (opts : TransitionOpts) :
    (st.isWrapped = true →
      wrap processElement groupChars st = (st.wrappedElements, st)) ∧
    (st.isWrapped = false →
      transitionTo st newText strategy opts = (none, st)) := by
  constructor
  · intro h
    simp [wrap, h]
  · intro h
    simp [transitionTo, h]

theorem misuse_guards_witness :
    wrap (fun _ => ([], [])) (fun _ _ => [])
        (⟨true, "hi", ⟨[1, 2], [], []⟩, true⟩ : CharWrapperState Nat) =
      ((⟨true, "hi", ⟨[1, 2], [], []⟩, true⟩ :
          CharWrapperState Nat).wrappedElements,
        (⟨true, "hi", ⟨[1, 2], [], []⟩, true⟩ : CharWrapperState Nat)) ∧
    transitionTo (⟨false, "hi", ⟨[1, 2], [], []⟩, true⟩ :
        CharWrapperState Nat) "yo" Strategy.smart defaultOpts =
      (none, (⟨false, "hi", ⟨[1, 2], [], []⟩, true⟩ :
        CharWrapperState Nat)) :=
  ⟨(misuse_guards (fun _ => ([], [])) (fun _ _ => [])
      (⟨true, "hi", ⟨[1, 2], [], []⟩, true⟩ : CharWrapperState Nat) "yo"
      Strategy.smart defaultOpts).1 rfl,
    (misuse_guards (fun _ => ([], [])) (fun _ _ => [])
      (⟨false, "hi", ⟨[1, 2], [], []⟩, true⟩ : CharWrapperState Nat) "yo"
      Strategy.smart defaultOpts).2 rfl⟩

end CharWrapper
